import Mathlib

set_option maxRecDepth 200000

/-!
Verification development for the OP-stack deposit-receipt codec
(`crates/consensus/src/receipt/receipts.rs`).

The Rust source defines `OpDepositReceipt` (an `alloy_consensus::Receipt`
plus two optional deposit fields) and `OpDepositReceiptWithBloom` (the
receipt plus a cached 256-byte bloom filter), together with an RLP
`Encodable`/`Decodable` implementation.  This file shallowly embeds the
data model and the codec, including the parts of the external collaborator
crates the codec calls into (`alloy_rlp` header/uint/bytes decoding,
`alloy_primitives` `Log`/`Bloom` RLP and the m3-2048 bloom accrual with
keccak-256, `alloy_consensus` `Eip658Value`), and proves the spec's
testable properties about it.

Bytes are modelled as `List Nat` (a Rust `u8` slice has every element
`< 256`; predicates track this where it matters).  Machine-integer
(`usize`) wrapping subtraction is modelled explicitly where the source can
underflow.  Fallible decoding returns `Except Err`.
-/

/-- A byte string; Rust `&[u8]` / `Vec<u8>`. -/
abbrev Bytes := List Nat

/-- All elements are genuine bytes, as Rust's `u8` element type enforces. -/
def ValidB (bs : Bytes) : Prop := ∀ b ∈ bs, b < 256

instance (bs : Bytes) : Decidable (ValidB bs) := by
  unfold ValidB; infer_instance

/-- Big-endian interpretation of a byte string (Rust `u64::from_be_bytes`
after left-padding). -/
def natFromBe (bs : Bytes) : Nat := bs.foldl (fun acc d => acc * 256 + d) 0

/-- Fuel-driven helper for `beBytes`; the fuel bounds the recursion depth and
is always sufficient when initialised to the number itself. -/
def beBytesF : Nat → Nat → Bytes
  | 0, _ => []
  | fuel + 1, n => if n = 0 then [] else beBytesF fuel (n / 256) ++ [n % 256]

/-- Minimal big-endian byte representation of `n` (no leading zero; `0`
becomes the empty string), as produced by the `alloy_rlp` integer encoders. -/
def beBytes (n : Nat) : Bytes := beBytesF n n

/-- 64-bit wrapping subtraction on naturals below `2 ^ 64`: the semantics of
Rust release-mode `usize` subtraction `a - b`. -/
def wsub (a b : Nat) : Nat := (2 ^ 64 + a - b) % 2 ^ 64

/-- RLP decode errors (`alloy_rlp::Error`; custom message payloads dropped). -/
inductive Err where
  | inputTooShort
  | unexpectedString
  | unexpectedList
  | unexpectedLength
  | nonCanonicalSingleByte
  | nonCanonicalSize
  | leadingZero
  | overflow
  | custom
  | listLengthMismatch (expected got : Nat)
deriving DecidableEq, Repr

/-- An RLP item header (`alloy_rlp::Header`). -/
structure RlpHeader where
  list : Bool
  payload_length : Nat
deriving DecidableEq, Repr

/-- `alloy_rlp::static_left_pad::<N>` followed by `from_be_bytes`: rejects
over-long and leading-zero byte strings, reads the rest big-endian. -/
def staticLeftPad (maxBytes : Nat) (bs : Bytes) : Except Err Nat :=
  if maxBytes < bs.length then .error .overflow
  else
    match bs with
    | [] => .ok 0
    | d :: _ => if d = 0 then .error .leadingZero else .ok (natFromBe bs)

/-- Final step of `alloy_rlp::Header::decode`: the remaining buffer must hold
at least the declared payload. -/
def headerRemCheck (list : Bool) (pl : Nat) (b : Bytes) :
    Except Err (RlpHeader × Bytes) :=
  if b.length < pl then .error .inputTooShort else .ok (⟨list, pl⟩, b)

/-- Long-form branch of `alloy_rlp::Header::decode`: a length-of-length in
`1..=8`, big-endian length bytes without leading zero, value at least 56. -/
def decodeLongLen (isList : Bool) (lenOfLen : Nat) (rest : Bytes) :
    Except Err (RlpHeader × Bytes) :=
  if lenOfLen = 0 ∨ 8 < lenOfLen then .error .custom
  else if rest.length < lenOfLen then .error .inputTooShort
  else
    match staticLeftPad 8 (rest.take lenOfLen) with
    | .error e => .error e
    | .ok len =>
      if len < 56 then .error .nonCanonicalSize
      else headerRemCheck isList len (rest.drop lenOfLen)

/-- `alloy_rlp::Header::decode`.  A single byte `0x00..=0x7f` is its own
payload (the cursor is not advanced past it); short and long string/list
forms follow, with the canonical-form checks of the source. -/
def decodeHeader (buf : Bytes) : Except Err (RlpHeader × Bytes) :=
  match buf with
  | [] => .error .inputTooShort
  | b0 :: rest =>
    if b0 ≤ 0x7f then headerRemCheck false 1 (b0 :: rest)
    else if b0 ≤ 0xb7 then
      if b0 - 0x80 = 1 then
        match rest with
        | [] => .error .inputTooShort
        | b1 :: _ =>
          if b1 < 0x80 then .error .nonCanonicalSingleByte
          else headerRemCheck false (b0 - 0x80) rest
      else headerRemCheck false (b0 - 0x80) rest
    else if b0 ≤ 0xbf then decodeLongLen false (b0 - 0xb7) rest
    else if b0 ≤ 0xf7 then headerRemCheck true (b0 - 0xc0) rest
    else decodeLongLen true (b0 - 0xf7) rest

/-- `alloy_rlp::Header::decode_bytes`: decode a header, require the given
string/list kind, and split off exactly the declared payload. -/
def decodeBytes (isList : Bool) (buf : Bytes) : Except Err (Bytes × Bytes) :=
  match decodeHeader buf with
  | .error e => .error e
  | .ok (h, b) =>
    if h.list = isList then .ok (b.take h.payload_length, b.drop h.payload_length)
    else .error (if isList then .unexpectedString else .unexpectedList)

/-- Unsigned-integer RLP decoding (`alloy_rlp` impl for `u64`, `u128`, …):
a string payload fed through `static_left_pad`. -/
def decodeUint (maxBytes : Nat) (buf : Bytes) : Except Err (Nat × Bytes) :=
  match decodeBytes false buf with
  | .error e => .error e
  | .ok (p, rest) =>
    match staticLeftPad maxBytes p with
    | .error e => .error e
    | .ok n => .ok (n, rest)

/-- `alloy_rlp` decoding of `FixedBytes<N>` (`Address`, `B256`, `Bloom`):
a string payload of exactly `n` bytes. -/
def decodeFixed (n : Nat) (buf : Bytes) : Except Err (Bytes × Bytes) :=
  match decodeBytes false buf with
  | .error e => .error e
  | .ok (p, rest) =>
    if p.length = n then .ok (p, rest) else .error .unexpectedLength

/-- `alloy_consensus::Eip658Value`: a post-EIP-658 success flag or a legacy
pre-Byzantium state root. -/
inductive Eip658Value where
  | eip658 (status : Bool)
  | postState (hash : Bytes)
deriving DecidableEq, Repr

/-- `alloy_primitives::LogData`: topics plus opaque payload bytes. -/
structure LogData where
  topics : List Bytes
  data : Bytes
deriving DecidableEq, Repr

/-- `alloy_primitives::Log`: emitting address plus data. -/
structure Log where
  address : Bytes
  data : LogData
deriving DecidableEq, Repr

/-- `alloy_consensus::Receipt`: the base receipt fields. -/
structure Receipt where
  status : Eip658Value
  cumulative_gas_used : Nat
  logs : List Log
deriving DecidableEq, Repr

/-- `OpDepositReceipt` (receipts.rs lines 14-42). -/
structure OpDepositReceipt where
  inner : Receipt
  deposit_nonce : Option Nat
  deposit_receipt_version : Option Nat
deriving DecidableEq, Repr

/-- `OpDepositReceiptWithBloom` (receipts.rs lines 108-114). -/
structure OpDepositReceiptWithBloom where
  receipt : OpDepositReceipt
  logs_bloom : Bytes
deriving DecidableEq, Repr

/-- `alloy_consensus` decoding of `Eip658Value`: dispatch on the first byte
(`0x80` false, `0x01` true, anything else must parse as a 32-byte hash). -/
def decodeStatus (buf : Bytes) : Except Err (Eip658Value × Bytes) :=
  match buf with
  | [] => .error .inputTooShort
  | b0 :: rest =>
    if b0 = 0x80 then .ok (.eip658 false, rest)
    else if b0 = 0x01 then .ok (.eip658 true, rest)
    else
      match decodeFixed 32 (b0 :: rest) with
      | .error e => .error e
      | .ok (h, r) => .ok (.postState h, r)

/-- The `Vec<B256>` decoding loop over a split-off payload slice
(`alloy_rlp` `Vec` decoding).  The fuel only bounds the recursion; each
successful element consumes at least one byte, so fuel initialised to the
slice length never runs out. -/
def decodeTopicsLoop : Nat → Bytes → Except Err (List Bytes)
  | _, [] => .ok []
  | 0, _ :: _ => .error .custom
  | fuel + 1, b0 :: bs =>
    match decodeFixed 32 (b0 :: bs) with
    | .error e => .error e
    | .ok (t, rest) =>
      match decodeTopicsLoop fuel rest with
      | .error e => .error e
      | .ok ts => .ok (t :: ts)

/-- `Vec<B256>` RLP decoding: list header, then elements from the payload. -/
def decodeTopics (buf : Bytes) : Except Err (List Bytes × Bytes) :=
  match decodeBytes true buf with
  | .error e => .error e
  | .ok (p, rest) =>
    match decodeTopicsLoop p.length p with
    | .error e => .error e
    | .ok ts => .ok (ts, rest)

/-- `alloy_primitives` RLP decoding of `Log`: a list of
`[address, topics, data]` whose consumed payload must match the header. -/
def decodeLog (buf : Bytes) : Except Err (Log × Bytes) :=
  match decodeHeader buf with
  | .error e => .error e
  | .ok (h, b) =>
    if h.list then
      match decodeFixed 20 b with
      | .error e => .error e
      | .ok (addr, b1) =>
        match decodeTopics b1 with
        | .error e => .error e
        | .ok (ts, b2) =>
          match decodeBytes false b2 with
          | .error e => .error e
          | .ok (d, b3) =>
            if b.length - b3.length = h.payload_length then
              .ok (⟨addr, ⟨ts, d⟩⟩, b3)
            else .error (.listLengthMismatch h.payload_length (b.length - b3.length))
    else .error .unexpectedString

/-- The `Vec<Log>` decoding loop over a split-off payload slice; fuel as in
`decodeTopicsLoop`. -/
def decodeLogsLoop : Nat → Bytes → Except Err (List Log)
  | _, [] => .ok []
  | 0, _ :: _ => .error .custom
  | fuel + 1, b0 :: bs =>
    match decodeLog (b0 :: bs) with
    | .error e => .error e
    | .ok (l, rest) =>
      match decodeLogsLoop fuel rest with
      | .error e => .error e
      | .ok ls => .ok (l :: ls)

/-- `Vec<Log>` RLP decoding: list header, then elements from the payload. -/
def decodeLogs (buf : Bytes) : Except Err (List Log × Bytes) :=
  match decodeBytes true buf with
  | .error e => .error e
  | .ok (p, rest) =>
    match decodeLogsLoop p.length p with
    | .error e => .error e
    | .ok ls => .ok (ls, rest)

/-- The four mandatory fields read by `decode_receipt`
(receipts.rs lines 215-218), bundled for stating theorems about the
decoder's intermediate state. -/
structure Mandatory where
  success : Eip658Value
  cumulative_gas_used : Nat
  bloom : Bytes
  logs : List Log
deriving DecidableEq, Repr

/-- Receipts.rs lines 215-218: status, cumulative gas (`u128`), bloom
(256 bytes), logs, decoded in fixed order. -/
def decodeMandatory (b : Bytes) : Except Err (Mandatory × Bytes) :=
  match decodeStatus b with
  | .error e => .error e
  | .ok (s, b1) =>
    match decodeUint 16 b1 with
    | .error e => .error e
    | .ok (g, b2) =>
      match decodeFixed 256 b2 with
      | .error e => .error e
      | .ok (bl, b3) =>
        match decodeLogs b3 with
        | .error e => .error e
        | .ok (ls, b4) => .ok (⟨s, g, bl, ls⟩, b4)

/-- Receipts.rs lines 220-223: the `remaining` closure
`rlp_head.payload_length - (started_len - b.len()) > 0` decides whether to
read each optional field.  The outer `usize` subtraction can underflow; it
is modelled with release-mode wrapping semantics (`wsub`). -/
def decodeOptionals (payloadLength startedLen : Nat) (b : Bytes) :
    Except Err ((Option Nat × Option Nat) × Bytes) :=
  if 0 < wsub payloadLength (startedLen - b.length) then
    match decodeUint 8 b with
    | .error e => .error e
    | .ok (n, b5) =>
      if 0 < wsub payloadLength (startedLen - b5.length) then
        match decodeUint 8 b5 with
        | .error e => .error e
        | .ok (v, b6) => .ok ((some n, some v), b6)
      else .ok ((some n, none), b5)
  else .ok ((none, none), b)

/-- Receipts.rs lines 213-240: everything after the list header.
`started_len` is recorded, the four mandatory and up to two optional fields
are decoded, and the consumed byte count must equal the declared payload
length exactly (lines 232-238). -/
def decodeAfterHeader (payloadLength : Nat) (b : Bytes) :
    Except Err (OpDepositReceiptWithBloom × Bytes) :=
  let startedLen := b.length
  match decodeMandatory b with
  | .error e => .error e
  | .ok (m, b4) =>
    match decodeOptionals payloadLength startedLen b4 with
    | .error e => .error e
    | .ok ((dn, dv), b') =>
      let consumed := startedLen - b'.length
      if consumed = payloadLength then
        .ok (⟨⟨⟨m.success, m.cumulative_gas_used, m.logs⟩, dn, dv⟩, m.bloom⟩, b')
      else .error (.listLengthMismatch payloadLength consumed)

/-- `OpDepositReceiptWithBloom::decode_receipt` (receipts.rs lines 207-241):
list header, header-kind check, then `decodeAfterHeader`; on success the
caller's cursor advances past exactly the consumed bytes. -/
def decode_receipt (buf : Bytes) : Except Err (OpDepositReceiptWithBloom × Bytes) :=
  match decodeHeader buf with
  | .error e => .error e
  | .ok (h, b) =>
    if h.list then decodeAfterHeader h.payload_length b
    else .error .unexpectedString

/-- The bloom field as read by the decoder, for stating that a successful
decode returns those filter bits verbatim. -/
def decodedBloom (buf : Bytes) : Option Bytes :=
  match decodeHeader buf with
  | .error _ => none
  | .ok (h, b) =>
    if h.list then
      match decodeMandatory b with
      | .error _ => none
      | .ok (m, _) => some m.bloom
    else none

/-! Encoding side: `alloy_rlp` encoders and lengths, then the receipt's own
`payload_len`, `encode_fields` and `length`. -/

/-- `alloy_rlp::length_of_length`: the byte count of a header carrying the
given payload length. -/
def lengthOfLength (pl : Nat) : Nat :=
  if pl < 56 then 1 else 1 + (beBytes pl).length

/-- `alloy_rlp::Header::encode`: short form below 56, otherwise
length-of-length prefix plus big-endian length bytes. -/
def encHeader (isList : Bool) (pl : Nat) : Bytes :=
  if pl < 56 then [(if isList then 0xc0 else 0x80) + pl]
  else ((if isList then 0xf7 else 0xb7) + (beBytes pl).length) :: beBytes pl

/-- `alloy_rlp` string encoding of a byte slice: a lone byte below `0x80`
stands for itself, otherwise a string header precedes the payload. -/
def encStr (payload : Bytes) : Bytes :=
  if payload.length = 1 ∧ payload.headI < 0x80 then payload
  else encHeader false payload.length ++ payload

/-- `alloy_rlp` `Encodable::length` for a byte slice. -/
def strRlpLen (bs : Bytes) : Nat :=
  if bs.length = 1 ∧ bs.headI < 0x80 then 1
  else lengthOfLength bs.length + bs.length

/-- Unsigned-integer RLP encoding (`alloy_rlp` impl for `u64`, `u128`, …):
the minimal big-endian bytes as a string item. -/
def encNat (n : Nat) : Bytes := encStr (beBytes n)

/-- `alloy_rlp` `Encodable::length` for unsigned integers. -/
def natRlpLen (n : Nat) : Nat :=
  if n < 0x80 then 1 else 1 + (beBytes n).length

/-- `alloy_consensus::Eip658Value` encoding: a bool (`0x01` / `0x80`) or the
32-byte state root as a string item. -/
def encStatus : Eip658Value → Bytes
  | .eip658 true => [0x01]
  | .eip658 false => [0x80]
  | .postState h => encStr h

/-- `Eip658Value::length`. -/
def statusRlpLen : Eip658Value → Nat
  | .eip658 _ => 1
  | .postState h => strRlpLen h

/-- Concatenation of the encodings of a list's elements (the body that
`alloy_rlp` `Vec` encoding emits after its header). -/
def concatMap (f : α → Bytes) : List α → Bytes
  | [] => []
  | x :: xs => f x ++ concatMap f xs

/-- `Vec<B256>` encoding: list header over the summed element lengths. -/
def encTopics (ts : List Bytes) : Bytes :=
  encHeader true ((ts.map strRlpLen).sum) ++ concatMap encStr ts

/-- `Vec<B256>` `Encodable::length`. -/
def topicsRlpLen (ts : List Bytes) : Nat :=
  (ts.map strRlpLen).sum + lengthOfLength ((ts.map strRlpLen).sum)

/-- The payload length of one encoded `Log`: address, topics, data. -/
def logPayloadLen (l : Log) : Nat :=
  strRlpLen l.address + topicsRlpLen l.data.topics + strRlpLen l.data.data

/-- `Log` `Encodable::length`. -/
def logRlpLen (l : Log) : Nat :=
  logPayloadLen l + lengthOfLength (logPayloadLen l)

/-- `alloy_primitives` `Log` encoding: list header, address, topics, data. -/
def encLog (l : Log) : Bytes :=
  encHeader true (logPayloadLen l) ++ encStr l.address
    ++ encTopics l.data.topics ++ encStr l.data.data

/-- The summed encoded lengths of a log sequence (the `Vec<Log>` payload). -/
def logsPayloadLen (ls : List Log) : Nat := (ls.map logRlpLen).sum

/-- `Vec<Log>` encoding. -/
def encLogs (ls : List Log) : Bytes :=
  encHeader true (logsPayloadLen ls) ++ concatMap encLog ls

/-- `Vec<Log>` `Encodable::length`. -/
def logsRlpLen (ls : List Log) : Nat :=
  logsPayloadLen ls + lengthOfLength (logsPayloadLen ls)

/-- `opt.map_or(0, |x| x.length())` (receipts.rs lines 182-183). -/
def optNatLen : Option Nat → Nat
  | none => 0
  | some n => natRlpLen n

/-- The conditional trailing-field encoding (receipts.rs lines 198-203):
present values are encoded, absent ones contribute no bytes at all. -/
def optEncNat : Option Nat → Bytes
  | none => []
  | some n => encNat n

/-- `OpDepositReceiptWithBloom::payload_len` (receipts.rs lines 177-184). -/
def payload_len (w : OpDepositReceiptWithBloom) : Nat :=
  statusRlpLen w.receipt.inner.status
    + natRlpLen w.receipt.inner.cumulative_gas_used
    + strRlpLen w.logs_bloom
    + logsRlpLen w.receipt.inner.logs
    + optNatLen w.receipt.deposit_nonce
    + optNatLen w.receipt.deposit_receipt_version

/-- `OpDepositReceiptWithBloom::encode_fields` (receipts.rs lines 192-204),
which is also what `Encodable::encode` emits (lines 245-247): the list
header over `payload_len`, then the fields in fixed order, optional fields
only when present. -/
def encode_fields (w : OpDepositReceiptWithBloom) : Bytes :=
  encHeader true (payload_len w)
    ++ encStatus w.receipt.inner.status
    ++ encNat w.receipt.inner.cumulative_gas_used
    ++ encStr w.logs_bloom
    ++ encLogs w.receipt.inner.logs
    ++ optEncNat w.receipt.deposit_nonce
    ++ optEncNat w.receipt.deposit_receipt_version

/-- `<OpDepositReceiptWithBloom as Encodable>::length` (receipts.rs lines
249-257); the source inlines the same sum as `payload_len` and adds the
header's own length. -/
def rlpLength (w : OpDepositReceiptWithBloom) : Nat :=
  payload_len w + lengthOfLength (payload_len w)

/-! The bloom filter derivation (`bloom_slow`, receipts.rs lines 47-49, and
the `From` conversion, lines 152-157).  The fold structure is the source's;
the per-item accrual (`alloy_primitives` `Bloom::accrue_log` / `m3_2048`)
hashes each address and topic with keccak-256 and sets three bits, so a
full executable keccak-256 is embedded below. -/

/-- Left-rotation of a 64-bit lane. -/
def rotl64 (x n : Nat) : Nat := ((x <<< n) % 2 ^ 64) ||| (x >>> (64 - n))

/-- One step of the degree-8 LFSR of FIPS 202 that generates the round
constants. -/
def rcStep (r : Nat) : Nat :=
  let r2 := r <<< 1
  if r2 &&& 0x100 ≠ 0 then (r2 ^^^ 0x171) &&& 0xff else r2

/-- The LFSR output bit rc(t). -/
def rcBit (t : Nat) : Nat := (Nat.iterate rcStep t 1) &&& 1

/-- The 24 keccak-f[1600] round constants, derived from the LFSR: round i
collects rc(j + 7 i) at bit position 2 ^ j - 1 for j = 0..6. -/
def keccakRC : List Nat :=
  (List.range 24).map fun i =>
    (List.range 7).foldl (fun acc j => acc ||| (rcBit (j + 7 * i) <<< (2 ^ j - 1))) 0

/-- Rho rotation offsets, indexed by lane position `x + 5 * y`: the walk
starts at lane (1,0), rotates by the triangular number (t+1)(t+2)/2 mod 64
at step t, and moves by (x,y) to (y, 2x+3y mod 5). -/
def rhoOffsets : List Nat :=
  ((List.range 24).foldl
    (fun st t =>
      let a := st.1
      let xy := st.2
      (a.set (xy.1 + 5 * xy.2) (((t + 1) * (t + 2) / 2) % 64),
        (xy.2, (2 * xy.1 + 3 * xy.2) % 5)))
    (List.replicate 25 0, (1, 0))).1

/-- Keccak theta step on a 25-lane state. -/
def theta (A : List Nat) : List Nat :=
  let C := (List.range 5).map fun x =>
    (A.getD x 0) ^^^ (A.getD (x + 5) 0) ^^^ (A.getD (x + 10) 0)
      ^^^ (A.getD (x + 15) 0) ^^^ (A.getD (x + 20) 0)
  let D := (List.range 5).map fun x =>
    (C.getD ((x + 4) % 5) 0) ^^^ rotl64 (C.getD ((x + 1) % 5) 0) 1
  (List.range 25).map fun i => (A.getD i 0) ^^^ (D.getD (i % 5) 0)

/-- Keccak rho and pi steps combined. -/
def rhoPi (A : List Nat) : List Nat :=
  (List.range 25).foldl
    (fun B i =>
      let x := i % 5
      let y := i / 5
      let j := y + 5 * ((2 * x + 3 * y) % 5)
      B.set j (rotl64 (A.getD i 0) (rhoOffsets.getD i 0)))
    (List.replicate 25 0)

/-- Keccak chi step. -/
def chi (A : List Nat) : List Nat :=
  (List.range 25).map fun i =>
    let x := i % 5
    let y := i / 5
    (A.getD i 0) ^^^
      (((A.getD ((x + 1) % 5 + 5 * y) 0) ^^^ (2 ^ 64 - 1)) &&& (A.getD ((x + 2) % 5 + 5 * y) 0))

/-- One keccak-f round: theta, rho-pi, chi, iota. -/
def keccakRound (A : List Nat) (rc : Nat) : List Nat :=
  let B := chi (rhoPi (theta A))
  B.set 0 ((B.getD 0 0) ^^^ rc)

/-- The keccak-f[1600] permutation: 24 rounds. -/
def keccakF (A : List Nat) : List Nat := keccakRC.foldl keccakRound A

/-- Little-endian interpretation of up to eight bytes as one lane. -/
def leBytesToLane (bs : Bytes) : Nat := bs.foldr (fun b acc => acc * 256 + b) 0

/-- Absorb one 136-byte rate block into the state and permute. -/
def absorbBlock (A : List Nat) (block : Bytes) : List Nat :=
  keccakF ((List.range 25).map fun i =>
    (A.getD i 0) ^^^ (if i < 17 then leBytesToLane ((block.drop (8 * i)).take 8) else 0))

/-- Keccak (pre-SHA-3) padding to a whole number of 136-byte blocks. -/
def keccakPad (msg : Bytes) : Bytes :=
  let padLen := 136 - msg.length % 136
  if padLen = 1 then msg ++ [0x81]
  else msg ++ [0x01] ++ List.replicate (padLen - 2) 0 ++ [0x80]

/-- Absorb all blocks of an already-padded message; the fuel (initialised to
the message length) strictly dominates the 136-byte steps. -/
def absorbAll : Nat → List Nat → Bytes → List Nat
  | _, A, [] => A
  | 0, A, _ :: _ => A
  | fuel + 1, A, b0 :: bs => absorbAll fuel (absorbBlock A ((b0 :: bs).take 136)) ((b0 :: bs).drop 136)

/-- The eight little-endian bytes of one lane. -/
def laneBytes (lane : Nat) : Bytes := (List.range 8).map fun k => (lane >>> (8 * k)) % 256

/-- keccak-256 of a byte string (`alloy_primitives::keccak256`). -/
def keccak256 (msg : Bytes) : Bytes :=
  let padded := keccakPad msg
  let A := absorbAll padded.length (List.replicate 25 0) padded
  concatMap laneBytes [A.getD 0 0, A.getD 1 0, A.getD 2 0, A.getD 3 0]

/-- `Bloom::m3_2048_hashed`: set three bits of the 256-byte filter, indexed
by eleven-bit slices of the item's hash. -/
def m3_2048_hashed (bloom : Bytes) (hash : Bytes) : Bytes :=
  [0, 2, 4].foldl
    (fun bl i =>
      let bit := ((hash.getD (i + 1) 0) + ((hash.getD i 0) <<< 8)) &&& 0x7ff
      let byteIdx := 256 - 1 - bit / 8
      bl.set byteIdx ((bl.getD byteIdx 0) ||| (1 <<< (bit % 8))))
    bloom

/-- `Bloom::m3_2048`: hash the item, then set its three bits. -/
def m3_2048 (bloom : Bytes) (data : Bytes) : Bytes :=
  m3_2048_hashed bloom (keccak256 data)

/-- `Bloom::accrue_log`: fold the log's address and every topic into the
filter. -/
def accrue_log (bloom : Bytes) (l : Log) : Bytes :=
  l.data.topics.foldl (fun bl t => m3_2048 bl t) (m3_2048 bloom l.address)

/-- The empty 256-byte filter (`Bloom::ZERO`). -/
def zeroBloom : Bytes := List.replicate 256 0

/-- `OpDepositReceipt::bloom_slow` (receipts.rs lines 47-49):
`self.inner.logs.iter().collect()`, i.e. the fold of `accrue_log` over the
logs starting from the empty filter. -/
def bloom_slow (r : OpDepositReceipt) : Bytes :=
  r.inner.logs.foldl accrue_log zeroBloom

/-- `From<OpDepositReceipt> for OpDepositReceiptWithBloom`
(receipts.rs lines 152-157), which is what `with_bloom` (lines 53-55)
returns: the receipt unchanged plus its freshly computed filter. -/
def with_bloom (r : OpDepositReceipt) : OpDepositReceiptWithBloom :=
  ⟨r, bloom_slow r⟩

/-! Validity of receipt values: what the Rust types enforce (byte ranges,
fixed widths, `u64`/`u128` bounds, `usize` size limits) plus the spec's
deposit-field invariant. -/

/-- A bound restricted to present optional values. -/
def optLt (bound : Nat) : Option Nat → Prop
  | none => True
  | some n => n < bound

instance (bound : Nat) : ∀ o, Decidable (optLt bound o)
  | none => .isTrue trivial
  | some n => inferInstanceAs (Decidable (n < bound))

/-- A valid status value: the legacy state root is exactly 32 bytes. -/
def ValidStatus : Eip658Value → Prop
  | .eip658 _ => True
  | .postState h => h.length = 32 ∧ ValidB h

instance : ∀ s, Decidable (ValidStatus s)
  | .eip658 _ => .isTrue trivial
  | .postState h => inferInstanceAs (Decidable (h.length = 32 ∧ ValidB h))

/-- A valid log: 20-byte address, 32-byte topics, byte-valued data. -/
def ValidLog (l : Log) : Prop :=
  l.address.length = 20 ∧ ValidB l.address
    ∧ (∀ t ∈ l.data.topics, t.length = 32 ∧ ValidB t)
    ∧ ValidB l.data.data

instance (l : Log) : Decidable (ValidLog l) := by
  unfold ValidLog; infer_instance

/-- A valid wrapped receipt: well-formed fields, the deposit-field
invariant (no version without a nonce), and a total encoded size that fits
a `usize`. -/
def ValidWrapper (w : OpDepositReceiptWithBloom) : Prop :=
  ValidStatus w.receipt.inner.status
    ∧ w.receipt.inner.cumulative_gas_used < 2 ^ 128
    ∧ w.logs_bloom.length = 256
    ∧ ValidB w.logs_bloom
    ∧ (∀ l ∈ w.receipt.inner.logs, ValidLog l)
    ∧ optLt (2 ^ 64) w.receipt.deposit_nonce
    ∧ optLt (2 ^ 64) w.receipt.deposit_receipt_version
    ∧ (w.receipt.deposit_nonce = none → w.receipt.deposit_receipt_version = none)
    ∧ payload_len w < 2 ^ 64

instance (w : OpDepositReceiptWithBloom) : Decidable (ValidWrapper w) := by
  unfold ValidWrapper; infer_instance

/-- A valid bare receipt value: the same conditions, stated on the value
itself (the filter of its wrapper is derived by `with_bloom`). -/
def ValidReceipt (r : OpDepositReceipt) : Prop :=
  ValidStatus r.inner.status
    ∧ r.inner.cumulative_gas_used < 2 ^ 128
    ∧ (∀ l ∈ r.inner.logs, ValidLog l)
    ∧ optLt (2 ^ 64) r.deposit_nonce
    ∧ optLt (2 ^ 64) r.deposit_receipt_version
    ∧ (r.deposit_nonce = none → r.deposit_receipt_version = none)
    ∧ payload_len (with_bloom r) < 2 ^ 64

instance (r : OpDepositReceipt) : Decidable (ValidReceipt r) := by
  unfold ValidReceipt; infer_instance
instance {ε α : Type} [DecidableEq ε] [DecidableEq α] : DecidableEq (Except ε α)
  | .error e, .error f =>
    if h : e = f then .isTrue (by rw [h]) else .isFalse (by simp [h])
  | .error _, .ok _ => .isFalse (by simp)
  | .ok _, .error _ => .isFalse (by simp)
  | .ok a, .ok b =>
    if h : a = b then .isTrue (by rw [h]) else .isFalse (by simp [h])

/-- The fields emitted after the list header, in the source's fixed order
(receipts.rs lines 194-203), as one byte string. -/
def encBody (w : OpDepositReceiptWithBloom) : Bytes :=
  encStatus w.receipt.inner.status
    ++ (encNat w.receipt.inner.cumulative_gas_used
    ++ (encStr w.logs_bloom
    ++ (encLogs w.receipt.inner.logs
    ++ (optEncNat w.receipt.deposit_nonce
    ++ optEncNat w.receipt.deposit_receipt_version))))

/-- The post-Canyon fixture receipt from the source's tests: success, gas
46913, no logs, nonce 4012991, version 1. -/
def sampleReceipt : OpDepositReceipt :=
  ⟨⟨.eip658 true, 46913, []⟩, some 4012991, some 1⟩

/-- The fixture receipt wrapped with the all-zero filter (its logs are
empty, so this equals `with_bloom sampleReceipt`). -/
def sampleWrapper : OpDepositReceiptWithBloom := ⟨sampleReceipt, zeroBloom⟩

/-- A wrapper whose cached filter (all bits set) deliberately does not
match its empty log list. -/
def mismatchWrapper : OpDepositReceiptWithBloom :=
  ⟨⟨⟨.eip658 true, 0, []⟩, none, none⟩, List.replicate 256 0xff⟩

/-- Crafted decoder input: a list header declaring payload length 1,
followed by four well-formed mandatory fields totalling 262 bytes. -/
def underflowInput : Bytes := [0xc1, 0x80, 0x80] ++ encStr zeroBloom ++ [0xc0]

/-- The crafted input's bytes after its list header. -/
def underflowTail : Bytes := [0x80, 0x80] ++ encStr zeroBloom ++ [0xc0]

/-- The mandatory fields the decoder reads from the crafted input. -/
def underflowMandatory : Mandatory := ⟨.eip658 false, 0, zeroBloom, []⟩

/-- The body of the fixture encoding, after its three header bytes. -/
def sampleBody : Bytes := (encode_fields sampleWrapper).drop 3

/-- The mandatory fields of the fixture encoding. -/
def sampleMandatory : Mandatory := ⟨.eip658 true, 46913, zeroBloom, []⟩

/-! Arithmetic and byte-string foundations. -/

theorem beBytesF_eq_of_le (n : Nat) :
    ∀ f1 f2, n ≤ f1 → n ≤ f2 → beBytesF f1 n = beBytesF f2 n := by
  induction n using Nat.strong_induction_on with
  | _ n ih =>
    intro f1 f2 h1 h2
    rcases f1 with _ | a
    · have hn : n = 0 := by omega
      subst hn
      rcases f2 with _ | b <;> simp [beBytesF]
    · rcases f2 with _ | b
      · have hn : n = 0 := by omega
        subst hn
        simp [beBytesF]
      · by_cases hn : n = 0
        · subst hn; simp [beBytesF]
        · have hlt : n / 256 < n := Nat.div_lt_self (Nat.pos_of_ne_zero hn) (by norm_num)
          simp only [beBytesF, if_neg hn]
          rw [ih (n / 256) hlt a b (by omega) (by omega)]

theorem beBytes_succ (n : Nat) (h : 0 < n) :
    beBytes n = beBytes (n / 256) ++ [n % 256] := by
  have hlt : n / 256 < n := Nat.div_lt_self h (by norm_num)
  rcases n with _ | m
  · omega
  · show beBytesF (m + 1) (m + 1) = _
    simp only [beBytesF, if_neg (by omega : ¬ m + 1 = 0)]
    rw [beBytesF_eq_of_le ((m + 1) / 256) m ((m + 1) / 256) (by omega) le_rfl]
    rfl

theorem natFromBe_append_singleton (a : Bytes) (d : Nat) :
    natFromBe (a ++ [d]) = natFromBe a * 256 + d := by
  simp [natFromBe, List.foldl_append]

theorem natFromBe_beBytes : ∀ n, natFromBe (beBytes n) = n := by
  intro n
  induction n using Nat.strong_induction_on with
  | _ n ih =>
    by_cases hn : n = 0
    · subst hn; rfl
    · have h : 0 < n := Nat.pos_of_ne_zero hn
      rw [beBytes_succ n h, natFromBe_append_singleton,
        ih (n / 256) (Nat.div_lt_self h (by norm_num))]
      omega

theorem beBytes_length_le : ∀ (k n : Nat), n < 256 ^ k → (beBytes n).length ≤ k := by
  intro k
  induction k with
  | zero =>
    intro n hn
    have : n = 0 := by simpa using hn
    subst this
    simp [beBytes, beBytesF]
  | succ k ih =>
    intro n hn
    by_cases h0 : n = 0
    · subst h0; simp [beBytes, beBytesF]
    · rw [beBytes_succ n (Nat.pos_of_ne_zero h0)]
      have : n / 256 < 256 ^ k := by
        rw [Nat.div_lt_iff_lt_mul (by norm_num)]
        calc n < 256 ^ (k + 1) := hn
        _ = 256 ^ k * 256 := by rw [pow_succ]
      have := ih (n / 256) this
      simp only [List.length_append, List.length_singleton]
      omega

theorem beBytes_head_pos : ∀ n, 0 < n → ∃ d t, beBytes n = d :: t ∧ 0 < d := by
  intro n
  induction n using Nat.strong_induction_on with
  | _ n ih =>
    intro h
    rw [beBytes_succ n h]
    by_cases hs : n < 256
    · have h1 : n / 256 = 0 := Nat.div_eq_of_lt hs
      have h2 : n % 256 = n := Nat.mod_eq_of_lt hs
      rw [h1, h2]
      exact ⟨n, [], rfl, h⟩
    · have hq : 0 < n / 256 := Nat.div_pos (by omega) (by norm_num)
      obtain ⟨d, t, he, hd⟩ := ih (n / 256) (Nat.div_lt_self h (by norm_num)) hq
      exact ⟨d, t ++ [n % 256], by rw [he]; rfl, hd⟩

theorem beBytes_ne_nil (n : Nat) (h : 0 < n) : beBytes n ≠ [] := by
  obtain ⟨d, t, he, _⟩ := beBytes_head_pos n h
  simp [he]

theorem beBytes_length_pos (n : Nat) (h : 0 < n) : 0 < (beBytes n).length := by
  obtain ⟨d, t, he, _⟩ := beBytes_head_pos n h
  simp [he]

theorem beBytes_valid : ∀ n, ValidB (beBytes n) := by
  intro n
  induction n using Nat.strong_induction_on with
  | _ n ih =>
    by_cases hn : n = 0
    · subst hn
      intro b hb
      simp [beBytes, beBytesF] at hb
    · rw [beBytes_succ n (Nat.pos_of_ne_zero hn)]
      intro b hb
      rcases List.mem_append.mp hb with h | h
      · exact ih (n / 256) (Nat.div_lt_self (by omega) (by norm_num)) b h
      · have : b = n % 256 := by simpa using h
        subst this
        exact Nat.mod_lt _ (by norm_num)

theorem beBytes_length_mono : ∀ q p, p ≤ q → (beBytes p).length ≤ (beBytes q).length := by
  intro q
  induction q using Nat.strong_induction_on with
  | _ q ih =>
    intro p hpq
    by_cases hp : p = 0
    · subst hp; simp [beBytes, beBytesF]
    · have hq : 0 < q := by omega
      rw [beBytes_succ p (by omega), beBytes_succ q hq]
      simp only [List.length_append, List.length_singleton]
      have := ih (q / 256) (Nat.div_lt_self hq (by norm_num)) (p / 256)
        (Nat.div_le_div_right hpq)
      omega

theorem staticLeftPad_beBytes (N n : Nat) (h : (beBytes n).length ≤ N) :
    staticLeftPad N (beBytes n) = .ok n := by
  unfold staticLeftPad
  rw [if_neg (by omega)]
  by_cases hn : n = 0
  · subst hn; rfl
  · obtain ⟨d, t, he, hd⟩ := beBytes_head_pos n (Nat.pos_of_ne_zero hn)
    rw [he]
    simp only [if_neg (by omega : ¬ d = 0)]
    rw [← he, natFromBe_beBytes]

theorem natFromBe_foldl_lt (bs : Bytes) :
    ∀ acc, ValidB bs →
      bs.foldl (fun acc d => acc * 256 + d) acc < (acc + 1) * 256 ^ bs.length := by
  induction bs with
  | nil => intro acc _; simp
  | cons d ds ih =>
    intro acc hv
    have hd : d < 256 := hv d (by simp)
    have hds : ValidB ds := fun b hb => hv b (by simp [hb])
    calc (d :: ds).foldl (fun acc d => acc * 256 + d) acc
        = ds.foldl (fun acc d => acc * 256 + d) (acc * 256 + d) := rfl
      _ < (acc * 256 + d + 1) * 256 ^ ds.length := ih _ hds
      _ ≤ ((acc + 1) * 256) * 256 ^ ds.length :=
          Nat.mul_le_mul_right _ (by omega)
      _ = (acc + 1) * 256 ^ (d :: ds).length := by
          rw [List.length_cons, pow_succ]; ring

theorem natFromBe_lt (bs : Bytes) (hv : ValidB bs) : natFromBe bs < 256 ^ bs.length := by
  have := natFromBe_foldl_lt bs 0 hv
  simpa [natFromBe] using this

theorem wsub_self (a : Nat) : wsub a a = 0 := by
  unfold wsub; omega

theorem wsub_sub_cancel (a k : Nat) (h1 : k ≤ a) (h2 : a < 2 ^ 64) :
    wsub a (a - k) = k := by
  unfold wsub; omega

theorem wsub_pos_of_lt (a b : Nat) (h1 : a < b) (h2 : b < 2 ^ 64) : 0 < wsub a b := by
  unfold wsub; omega

/-! Basic length facts about the encoders. -/

theorem length_encHeader (isList : Bool) (pl : Nat) :
    (encHeader isList pl).length = lengthOfLength pl := by
  unfold encHeader lengthOfLength
  split <;> simp [Nat.add_comm]

theorem lengthOfLength_pos (pl : Nat) : 0 < lengthOfLength pl := by
  unfold lengthOfLength
  split <;> omega

theorem lengthOfLength_mono (p q : Nat) (h : p ≤ q) :
    lengthOfLength p ≤ lengthOfLength q := by
  unfold lengthOfLength
  have := beBytes_length_mono q p h
  split <;> split <;> omega

theorem length_encStr (bs : Bytes) : (encStr bs).length = strRlpLen bs := by
  unfold encStr strRlpLen
  split
  · simp_all
  · simp [length_encHeader]

theorem strRlpLen_pos (bs : Bytes) : 0 < strRlpLen bs := by
  unfold strRlpLen
  split
  · omega
  · have := lengthOfLength_pos bs.length
    omega

theorem natRlpLen_pos (n : Nat) : 0 < natRlpLen n := by
  unfold natRlpLen
  split <;> omega

/-! Header round-trip: decoding what `encHeader` produced. -/

theorem decodeHeader_cons (b0 : Nat) (rest : Bytes) :
    decodeHeader (b0 :: rest) =
      (if b0 ≤ 0x7f then headerRemCheck false 1 (b0 :: rest)
      else if b0 ≤ 0xb7 then
        if b0 - 0x80 = 1 then
          match rest with
          | [] => Except.error Err.inputTooShort
          | b1 :: _ =>
            if b1 < 0x80 then Except.error Err.nonCanonicalSingleByte
            else headerRemCheck false (b0 - 0x80) rest
        else headerRemCheck false (b0 - 0x80) rest
      else if b0 ≤ 0xbf then decodeLongLen false (b0 - 0xb7) rest
      else if b0 ≤ 0xf7 then headerRemCheck true (b0 - 0xc0) rest
      else decodeLongLen true (b0 - 0xf7) rest) := rfl

theorem decodeHeader_single (b0 : Nat) (rest : Bytes) (h : b0 ≤ 0x7f) :
    decodeHeader (b0 :: rest) = headerRemCheck false 1 (b0 :: rest) := by
  rw [decodeHeader_cons, if_pos h]

theorem decodeHeader_str_short (b0 : Nat) (rest : Bytes)
    (h1 : 0x80 ≤ b0) (h2 : b0 ≤ 0xb7) (h3 : b0 - 0x80 ≠ 1) :
    decodeHeader (b0 :: rest) = headerRemCheck false (b0 - 0x80) rest := by
  rw [decodeHeader_cons, if_neg (by omega), if_pos (by omega), if_neg h3]

theorem decodeHeader_str_one (b1 : Nat) (t : Bytes) (h : ¬ b1 < 0x80) :
    decodeHeader (0x81 :: b1 :: t) = headerRemCheck false 1 (b1 :: t) := by
  rw [decodeHeader_cons, if_neg (by omega), if_pos (by omega), if_pos (by omega)]
  show (if b1 < 0x80 then Except.error Err.nonCanonicalSingleByte
    else headerRemCheck false (0x81 - 0x80) (b1 :: t)) = _
  rw [if_neg h]

theorem decodeHeader_str_long (b0 : Nat) (rest : Bytes)
    (h1 : 0xb7 < b0) (h2 : b0 ≤ 0xbf) :
    decodeHeader (b0 :: rest) = decodeLongLen false (b0 - 0xb7) rest := by
  rw [decodeHeader_cons, if_neg (by omega), if_neg (by omega), if_pos (by omega)]

theorem decodeHeader_list_short (b0 : Nat) (rest : Bytes)
    (h1 : 0xc0 ≤ b0) (h2 : b0 ≤ 0xf7) :
    decodeHeader (b0 :: rest) = headerRemCheck true (b0 - 0xc0) rest := by
  rw [decodeHeader_cons, if_neg (by omega), if_neg (by omega), if_neg (by omega),
    if_pos (by omega)]

theorem decodeHeader_list_long (b0 : Nat) (rest : Bytes) (h1 : 0xf7 < b0) :
    decodeHeader (b0 :: rest) = decodeLongLen true (b0 - 0xf7) rest := by
  rw [decodeHeader_cons, if_neg (by omega), if_neg (by omega), if_neg (by omega),
    if_neg (by omega)]

theorem encHeader_true_lt56 (pl : Nat) (h : pl < 56) :
    encHeader true pl = [0xc0 + pl] := by
  simp [encHeader, h]

theorem encHeader_false_lt56 (pl : Nat) (h : pl < 56) :
    encHeader false pl = [0x80 + pl] := by
  simp [encHeader, h]

theorem encHeader_true_ge56 (pl : Nat) (h : ¬ pl < 56) :
    encHeader true pl = (0xf7 + (beBytes pl).length) :: beBytes pl := by
  simp [encHeader, h]

theorem encHeader_false_ge56 (pl : Nat) (h : ¬ pl < 56) :
    encHeader false pl = (0xb7 + (beBytes pl).length) :: beBytes pl := by
  simp [encHeader, h]

theorem decodeLongLen_beBytes (isList : Bool) (pl : Nat) (rest : Bytes)
    (h56 : 56 ≤ pl) (h8 : (beBytes pl).length ≤ 8) :
    decodeLongLen isList (beBytes pl).length (beBytes pl ++ rest) =
      headerRemCheck isList pl rest := by
  have hL : 0 < (beBytes pl).length := beBytes_length_pos pl (by omega)
  unfold decodeLongLen
  rw [if_neg (by omega), if_neg (by simp), List.take_left,
    staticLeftPad_beBytes 8 pl h8]
  simp only [if_neg (by omega : ¬ pl < 56), List.drop_left]

theorem pow_256_8 : (256 : Nat) ^ 8 = 2 ^ 64 := by norm_num

theorem beBytes_le_8 (pl : Nat) (hpl : pl < 2 ^ 64) : (beBytes pl).length ≤ 8 :=
  beBytes_length_le 8 pl (by rw [pow_256_8]; omega)

theorem decodeHeader_encHeader_list (pl : Nat) (hpl : pl < 2 ^ 64) (rest : Bytes) :
    decodeHeader (encHeader true pl ++ rest) = headerRemCheck true pl rest := by
  by_cases h56 : pl < 56
  · rw [encHeader_true_lt56 pl h56]
    rw [List.singleton_append, decodeHeader_list_short _ _ (by omega) (by omega),
      Nat.add_sub_cancel_left]
  · have h8 := beBytes_le_8 pl hpl
    have hL : 0 < (beBytes pl).length := beBytes_length_pos pl (by omega)
    rw [encHeader_true_ge56 pl h56]
    rw [List.cons_append, decodeHeader_list_long _ _ (by omega)]
    rw [show 0xf7 + (beBytes pl).length - 0xf7 = (beBytes pl).length from by omega]
    exact decodeLongLen_beBytes true pl rest (by omega) h8

theorem decodeBytes_encStr (p : Bytes) (hp : p.length < 2 ^ 64) (rest : Bytes) :
    decodeBytes false (encStr p ++ rest) = .ok (p, rest) := by
  by_cases h1 : p.length = 1 ∧ p.headI < 0x80
  · obtain ⟨b, hb⟩ : ∃ b, p = [b] := by
      rcases p with _ | ⟨b, t⟩
      · simp at h1
      · rcases t with _ | ⟨c, t2⟩
        · exact ⟨b, rfl⟩
        · simp at h1
    subst hb
    have hb80 : b < 0x80 := by simpa using h1.2
    unfold encStr
    rw [if_pos h1]
    show decodeBytes false (b :: rest) = _
    unfold decodeBytes
    rw [decodeHeader_single b rest (by omega)]
    unfold headerRemCheck
    rw [if_neg (by simp)]
    simp
  · unfold encStr
    rw [if_neg h1]
    by_cases hlen1 : p.length = 1
    · obtain ⟨b, hb⟩ : ∃ b, p = [b] := by
        rcases p with _ | ⟨b, t⟩
        · simp at hlen1
        · rcases t with _ | ⟨c, t2⟩
          · exact ⟨b, rfl⟩
          · simp at hlen1
      subst hb
      have hb80 : ¬ b < 0x80 := by
        intro hc
        exact h1 ⟨by simp, by simpa using hc⟩
      rw [encHeader_false_lt56 _ (by simp)]
      show decodeBytes false (0x81 :: b :: rest) = _
      unfold decodeBytes
      rw [decodeHeader_str_one b rest hb80]
      unfold headerRemCheck
      rw [if_neg (by simp)]
      simp
    · by_cases h56 : p.length < 56
      · rw [encHeader_false_lt56 _ h56]
        rw [List.singleton_append]
        show decodeBytes false ((0x80 + p.length) :: (p ++ rest)) = _
        unfold decodeBytes
        rw [decodeHeader_str_short _ _ (by omega) (by omega) (by omega)]
        unfold headerRemCheck
        rw [if_neg (by simp only [List.length_append]; omega)]
        rw [show 0x80 + p.length - 0x80 = p.length from by omega]
        simp [List.take_left, List.drop_left]
      · have h8 := beBytes_le_8 p.length hp
        have hL : 0 < (beBytes p.length).length := beBytes_length_pos _ (by omega)
        rw [encHeader_false_ge56 _ h56]
        simp only [List.cons_append, List.append_assoc]
        unfold decodeBytes
        rw [decodeHeader_str_long _ _ (by omega) (by omega)]
        rw [show 0xb7 + (beBytes p.length).length - 0xb7 = (beBytes p.length).length
          from by omega]
        rw [decodeLongLen_beBytes false p.length (p ++ rest) (by omega) h8]
        unfold headerRemCheck
        rw [if_neg (by simp only [List.length_append]; omega)]
        simp [List.take_left, List.drop_left]

/-! Field-level round trips: integers, fixed-width bytes, status. -/

theorem decodeUint_encNat (N n : Nat) (hn : n < 256 ^ N) (hN : N < 2 ^ 64)
    (rest : Bytes) : decodeUint N (encNat n ++ rest) = .ok (n, rest) := by
  have hlen : (beBytes n).length ≤ N := beBytes_length_le N n hn
  unfold decodeUint encNat
  simp only [decodeBytes_encStr (beBytes n) (by omega) rest,
    staticLeftPad_beBytes N n hlen]

theorem decodeFixed_encStr (N : Nat) (p : Bytes) (hlen : p.length = N)
    (hN : N < 2 ^ 64) (rest : Bytes) :
    decodeFixed N (encStr p ++ rest) = .ok (p, rest) := by
  unfold decodeFixed
  simp only [decodeBytes_encStr p (by omega) rest, if_pos hlen]

theorem decodeStatus_cons (b0 : Nat) (rest : Bytes) :
    decodeStatus (b0 :: rest) =
      (if b0 = 0x80 then .ok (.eip658 false, rest)
      else if b0 = 0x01 then .ok (.eip658 true, rest)
      else
        match decodeFixed 32 (b0 :: rest) with
        | .error e => .error e
        | .ok (h, r) => .ok (.postState h, r)) := rfl

theorem encStr_len32 (h : Bytes) (h32 : h.length = 32) : encStr h = 0xa0 :: h := by
  unfold encStr
  rw [if_neg (by simp [h32]), h32, encHeader_false_lt56 32 (by norm_num)]
  rfl

theorem decodeStatus_encStatus (s : Eip658Value) (hs : ValidStatus s) (rest : Bytes) :
    decodeStatus (encStatus s ++ rest) = .ok (s, rest) := by
  match s with
  | .eip658 true =>
    show decodeStatus (0x01 :: rest) = _
    rw [decodeStatus_cons, if_neg (by norm_num), if_pos rfl]
  | .eip658 false =>
    show decodeStatus (0x80 :: rest) = _
    rw [decodeStatus_cons, if_pos rfl]
  | .postState h =>
    obtain ⟨h32, hv⟩ := hs
    have he : encStr h = 0xa0 :: h := encStr_len32 h h32
    show decodeStatus (encStr h ++ rest) = _
    rw [he, List.cons_append, decodeStatus_cons,
      if_neg (by norm_num), if_neg (by norm_num)]
    rw [show (0xa0 :: (h ++ rest) : Bytes) = encStr h ++ rest from by
      rw [he, List.cons_append]]
    simp only [decodeFixed_encStr 32 h h32 (by norm_num) rest]

/-! List payloads: topics and logs. -/

theorem concatMap_length (f : α → Bytes) (l : List α) :
    (concatMap f l).length = (l.map fun x => (f x).length).sum := by
  induction l with
  | nil => rfl
  | cons x xs ih => simp [concatMap, ih]

theorem length_concatMap_encStr (ts : List Bytes) :
    (concatMap encStr ts).length = (ts.map strRlpLen).sum := by
  rw [concatMap_length]
  congr 1
  exact List.map_congr_left fun t _ => length_encStr t

theorem length_encTopics (ts : List Bytes) :
    (encTopics ts).length = topicsRlpLen ts := by
  unfold encTopics topicsRlpLen
  rw [List.length_append, length_encHeader, length_concatMap_encStr]
  omega

theorem decodeBytes_list (pl : Nat) (hpl : pl < 2 ^ 64) (body rest : Bytes)
    (hb : body.length = pl) :
    decodeBytes true (encHeader true pl ++ body ++ rest) = .ok (body, rest) := by
  unfold decodeBytes
  rw [List.append_assoc, decodeHeader_encHeader_list pl hpl (body ++ rest)]
  unfold headerRemCheck
  rw [if_neg (by simp only [List.length_append]; omega)]
  simp [List.take_left' hb, List.drop_left' hb]

theorem decodeTopicsLoop_nil (fuel : Nat) : decodeTopicsLoop fuel [] = .ok [] := by
  cases fuel <;> rfl

theorem decodeTopicsLoop_cons (f b0 : Nat) (bs : Bytes) :
    decodeTopicsLoop (f + 1) (b0 :: bs) =
      (match decodeFixed 32 (b0 :: bs) with
      | .error e => .error e
      | .ok (t, rest) =>
        match decodeTopicsLoop f rest with
        | .error e => .error e
        | .ok ts => .ok (t :: ts)) := rfl

theorem encStr_ne_nil (bs : Bytes) : encStr bs ≠ [] := by
  intro hc
  have h1 : (encStr bs).length = 0 := by rw [hc]; rfl
  have := length_encStr bs
  have := strRlpLen_pos bs
  omega

theorem decodeTopicsLoop_enc (ts : List Bytes) (h32 : ∀ t ∈ ts, t.length = 32) :
    ∀ fuel, (concatMap encStr ts).length ≤ fuel →
      decodeTopicsLoop fuel (concatMap encStr ts) = .ok ts := by
  induction ts with
  | nil => intro fuel _; exact decodeTopicsLoop_nil fuel
  | cons t ts ih =>
    intro fuel hf
    have ht32 : t.length = 32 := h32 t (by simp)
    obtain ⟨b0, bs, he⟩ := List.exists_cons_of_ne_nil
      (show encStr t ++ concatMap encStr ts ≠ [] from by
        simp [encStr_ne_nil t])
    have hlen1 : 0 < (encStr t).length := by
      have := length_encStr t
      have := strRlpLen_pos t
      omega
    have hfl : (encStr t ++ concatMap encStr ts).length ≤ fuel := hf
    rcases fuel with _ | f
    · exfalso
      rw [List.length_append] at hfl
      omega
    · show decodeTopicsLoop (f + 1) (encStr t ++ concatMap encStr ts) = _
      rw [he, decodeTopicsLoop_cons, ← he]
      simp only [decodeFixed_encStr 32 t ht32 (by norm_num) (concatMap encStr ts)]
      rw [ih (fun u hu => h32 u (by simp [hu])) f (by
        rw [List.length_append] at hfl
        omega)]

theorem decodeTopics_encTopics (ts : List Bytes) (h32 : ∀ t ∈ ts, t.length = 32)
    (hpl : (ts.map strRlpLen).sum < 2 ^ 64) (rest : Bytes) :
    decodeTopics (encTopics ts ++ rest) = .ok (ts, rest) := by
  unfold decodeTopics encTopics
  rw [List.append_assoc, ← List.append_assoc]
  simp only [decodeBytes_list ((ts.map strRlpLen).sum) hpl (concatMap encStr ts)
    rest (length_concatMap_encStr ts)]
  rw [decodeTopicsLoop_enc ts h32 _ le_rfl]

theorem strRlpLen_ge_len (bs : Bytes) : bs.length ≤ strRlpLen bs := by
  unfold strRlpLen
  have := lengthOfLength_pos bs.length
  split
  · omega
  · omega

theorem length_encLog (l : Log) : (encLog l).length = logRlpLen l := by
  unfold encLog logRlpLen logPayloadLen
  simp only [List.length_append, length_encHeader, length_encStr, length_encTopics]
  omega

theorem logRlpLen_gt_payload (l : Log) : logPayloadLen l < logRlpLen l := by
  unfold logRlpLen
  have := lengthOfLength_pos (logPayloadLen l)
  omega

theorem decodeLog_encLog (l : Log) (hv : ValidLog l) (hlp : logPayloadLen l < 2 ^ 64)
    (rest : Bytes) : decodeLog (encLog l ++ rest) = .ok (l, rest) := by
  obtain ⟨addr, ts, d⟩ := l
  obtain ⟨ha20, hav, htop, hdv⟩ := hv
  have h32 : ∀ t ∈ ts, t.length = 32 := fun t ht => (htop t ht).1
  have hlp' : strRlpLen addr + topicsRlpLen ts + strRlpLen d < 2 ^ 64 := hlp
  have htpsum : (ts.map strRlpLen).sum < 2 ^ 64 := by
    have h1 : (ts.map strRlpLen).sum ≤ topicsRlpLen ts := by
      unfold topicsRlpLen; omega
    omega
  have hdlen : d.length < 2 ^ 64 := by
    have := strRlpLen_ge_len d
    omega
  have hsum : (encStr addr ++ (encTopics ts ++ (encStr d ++ rest))).length =
      strRlpLen addr + topicsRlpLen ts + strRlpLen d + rest.length := by
    simp only [List.length_append, length_encStr, length_encTopics]
    omega
  have hh : decodeHeader (encHeader true (strRlpLen addr + topicsRlpLen ts + strRlpLen d)
      ++ (encStr addr ++ (encTopics ts ++ (encStr d ++ rest)))) =
      .ok (⟨true, strRlpLen addr + topicsRlpLen ts + strRlpLen d⟩,
        encStr addr ++ (encTopics ts ++ (encStr d ++ rest))) := by
    rw [decodeHeader_encHeader_list _ hlp']
    unfold headerRemCheck
    rw [if_neg (by omega)]
  have hcon : (encStr addr ++ (encTopics ts ++ (encStr d ++ rest))).length - rest.length =
      strRlpLen addr + topicsRlpLen ts + strRlpLen d := by
    omega
  unfold decodeLog encLog
  simp only [List.append_assoc]
  rw [show logPayloadLen ⟨addr, ts, d⟩ = strRlpLen addr + topicsRlpLen ts + strRlpLen d
    from rfl]
  simp only [hh, decodeFixed_encStr 20 addr ha20 (by norm_num) _,
    decodeTopics_encTopics ts h32 htpsum _, decodeBytes_encStr d hdlen _, hcon]
  simp

theorem encLog_ne_nil (l : Log) : encLog l ≠ [] := by
  intro hc
  have h1 : (encLog l).length = 0 := by rw [hc]; rfl
  have := length_encLog l
  have := logRlpLen_gt_payload l
  omega

theorem length_encLogs (ls : List Log) : (encLogs ls).length = logsRlpLen ls := by
  unfold encLogs logsRlpLen logsPayloadLen
  rw [List.length_append, length_encHeader, concatMap_length]
  have : (ls.map fun x => (encLog x).length).sum = (ls.map logRlpLen).sum := by
    congr 1
    exact List.map_congr_left fun l _ => length_encLog l
  omega

theorem decodeLogsLoop_nil (fuel : Nat) : decodeLogsLoop fuel [] = .ok [] := by
  cases fuel <;> rfl

theorem decodeLogsLoop_cons (f b0 : Nat) (bs : Bytes) :
    decodeLogsLoop (f + 1) (b0 :: bs) =
      (match decodeLog (b0 :: bs) with
      | .error e => .error e
      | .ok (l, rest) =>
        match decodeLogsLoop f rest with
        | .error e => .error e
        | .ok ls => .ok (l :: ls)) := rfl

theorem decodeLogsLoop_enc (ls : List Log) (hv : ∀ l ∈ ls, ValidLog l)
    (hpl : ∀ l ∈ ls, logPayloadLen l < 2 ^ 64) :
    ∀ fuel, (concatMap encLog ls).length ≤ fuel →
      decodeLogsLoop fuel (concatMap encLog ls) = .ok ls := by
  induction ls with
  | nil => intro fuel _; exact decodeLogsLoop_nil fuel
  | cons l ls ih =>
    intro fuel hf
    obtain ⟨b0, bs, he⟩ := List.exists_cons_of_ne_nil
      (show encLog l ++ concatMap encLog ls ≠ [] from by
        simp [encLog_ne_nil l])
    have hlen1 : 0 < (encLog l).length := by
      have := length_encLog l
      have := logRlpLen_gt_payload l
      omega
    have hfl : (encLog l ++ concatMap encLog ls).length ≤ fuel := hf
    rcases fuel with _ | f
    · exfalso
      rw [List.length_append] at hfl
      omega
    · show decodeLogsLoop (f + 1) (encLog l ++ concatMap encLog ls) = _
      rw [he, decodeLogsLoop_cons, ← he]
      simp only [decodeLog_encLog l (hv l (by simp)) (hpl l (by simp))
        (concatMap encLog ls)]
      rw [ih (fun u hu => hv u (by simp [hu])) (fun u hu => hpl u (by simp [hu])) f (by
        rw [List.length_append] at hfl
        omega)]

theorem logRlpLen_le_sum (ls : List Log) (l : Log) (hl : l ∈ ls) :
    logRlpLen l ≤ logsPayloadLen ls := by
  unfold logsPayloadLen
  exact List.single_le_sum (fun _ _ => Nat.zero_le _) _ (List.mem_map_of_mem logRlpLen hl)

theorem decodeLogs_encLogs (ls : List Log) (hv : ∀ l ∈ ls, ValidLog l)
    (hpl : logsPayloadLen ls < 2 ^ 64) (rest : Bytes) :
    decodeLogs (encLogs ls ++ rest) = .ok (ls, rest) := by
  have hple : ∀ l ∈ ls, logPayloadLen l < 2 ^ 64 := by
    intro l hl
    have h1 := logRlpLen_le_sum ls l hl
    have h2 := logRlpLen_gt_payload l
    omega
  have hbody : (concatMap encLog ls).length = logsPayloadLen ls := by
    rw [concatMap_length]
    unfold logsPayloadLen
    congr 1
    exact List.map_congr_left fun l _ => length_encLog l
  unfold decodeLogs encLogs
  rw [List.append_assoc, ← List.append_assoc]
  simp only [decodeBytes_list (logsPayloadLen ls) hpl (concatMap encLog ls) rest hbody]
  rw [decodeLogsLoop_enc ls hv hple _ le_rfl]

/-! Remaining length lemmas and the mandatory-field round trip. -/

theorem beBytes_small (n : Nat) (h1 : 0 < n) (h2 : n < 256) : beBytes n = [n] := by
  rw [beBytes_succ n h1, Nat.div_eq_of_lt h2, Nat.mod_eq_of_lt h2]
  rfl

theorem beBytes_length_ge2 (n : Nat) (h : 256 ≤ n) : 2 ≤ (beBytes n).length := by
  rw [beBytes_succ n (by omega)]
  have : 0 < n / 256 := Nat.div_pos h (by norm_num)
  have := beBytes_length_pos (n / 256) this
  simp only [List.length_append, List.length_singleton]
  omega

theorem length_encStatus (s : Eip658Value) : (encStatus s).length = statusRlpLen s := by
  match s with
  | .eip658 true => rfl
  | .eip658 false => rfl
  | .postState h => exact length_encStr h

theorem length_encNat (n : Nat) (h : (beBytes n).length < 56) :
    (encNat n).length = natRlpLen n := by
  unfold encNat natRlpLen
  rw [length_encStr]
  unfold strRlpLen lengthOfLength
  by_cases h0 : n = 0
  · subst h0
    simp [beBytes, beBytesF]
  · by_cases h128 : n < 0x80
    · rw [beBytes_small n (by omega) (by omega)]
      simp [h128]
    · by_cases h256 : n < 256
      · rw [beBytes_small n (by omega) (by omega)]
        simp only [List.length_singleton, List.headI_cons]
        rw [if_neg (by omega), if_pos (by omega), if_neg h128]
      · have h2 := beBytes_length_ge2 n (by omega)
        rw [if_neg (by omega), if_pos (by omega), if_neg h128]

theorem length_optEncNat (o : Option Nat) (h : optLt (2 ^ 64) o) :
    (optEncNat o).length = optNatLen o := by
  match o with
  | none => rfl
  | some n =>
    have hn : n < 2 ^ 64 := h
    have h8 := beBytes_le_8 n hn
    exact length_encNat n (by omega)

theorem pow_256_16 : (256 : Nat) ^ 16 = 2 ^ 128 := by norm_num

theorem decodeMandatory_enc (s : Eip658Value) (g : Nat) (bloom : Bytes)
    (ls : List Log) (tail : Bytes) (hs : ValidStatus s) (hg : g < 2 ^ 128)
    (hb : bloom.length = 256) (hlv : ∀ l ∈ ls, ValidLog l)
    (hlp : logsPayloadLen ls < 2 ^ 64) :
    decodeMandatory (encStatus s ++ (encNat g ++ (encStr bloom ++ (encLogs ls ++ tail))))
      = .ok (⟨s, g, bloom, ls⟩, tail) := by
  unfold decodeMandatory
  simp only [decodeStatus_encStatus s hs _,
    decodeUint_encNat 16 g (by rw [pow_256_16]; omega) (by norm_num) _,
    decodeFixed_encStr 256 bloom hb (by norm_num) _,
    decodeLogs_encLogs ls hlv hlp _]

/-- Core round trip: decoding an encoding of any valid wrapped receipt
succeeds, returns the receipt, and leaves exactly the trailing bytes. -/
theorem decode_encode (w : OpDepositReceiptWithBloom) (hv : ValidWrapper w)
    (rest : Bytes) : decode_receipt (encode_fields w ++ rest) = .ok (w, rest) := by
  obtain ⟨⟨⟨s, g, ls⟩, dn, dv⟩, bloom⟩ := w
  obtain ⟨hs0, hg0, hb0, hbv0, hlv0, hnB0, hvB0, hinv0, hplB0⟩ := hv
  have hs : ValidStatus s := hs0
  have hg : g < 2 ^ 128 := hg0
  have hb256 : bloom.length = 256 := hb0
  have hlv : ∀ l ∈ ls, ValidLog l := hlv0
  have hnB : optLt (2 ^ 64) dn := hnB0
  have hvB : optLt (2 ^ 64) dv := hvB0
  have hinv : dn = none → dv = none := hinv0
  have hplB : statusRlpLen s + natRlpLen g + strRlpLen bloom + logsRlpLen ls
      + optNatLen dn + optNatLen dv < 2 ^ 64 := by
    have := hplB0
    simp only [payload_len] at this
    exact this
  clear hs0 hg0 hb0 hbv0 hlv0 hnB0 hvB0 hinv0 hplB0
  have hlolpos := lengthOfLength_pos (logsPayloadLen ls)
  have hlogs_lt : logsPayloadLen ls < 2 ^ 64 := by
    unfold logsRlpLen at hplB
    omega
  have hg16 : (beBytes g).length ≤ 16 :=
    beBytes_length_le 16 g (by rw [pow_256_16]; omega)
  have hL1 : (encStatus s).length = statusRlpLen s := length_encStatus s
  have hL2 : (encNat g).length = natRlpLen g := length_encNat g (by omega)
  have hL3 : (encStr bloom).length = strRlpLen bloom := length_encStr bloom
  have hL4 : (encLogs ls).length = logsRlpLen ls := length_encLogs ls
  have hL5 : (optEncNat dn).length = optNatLen dn := length_optEncNat dn hnB
  have hL6 : (optEncNat dv).length = optNatLen dv := length_optEncNat dv hvB
  unfold decode_receipt encode_fields
  simp only [List.append_assoc, payload_len]
  set P : Nat := statusRlpLen s + natRlpLen g + strRlpLen bloom + logsRlpLen ls
    + optNatLen dn + optNatLen dv with hP
  set B : Bytes := encStatus s ++ (encNat g ++ (encStr bloom ++ (encLogs ls
    ++ (optEncNat dn ++ (optEncNat dv ++ rest))))) with hB
  have hBlen : B.length = P + rest.length := by
    rw [hB]
    simp only [List.length_append]
    omega
  have hh : decodeHeader (encHeader true P ++ B) = .ok (⟨true, P⟩, B) := by
    rw [decodeHeader_encHeader_list P (by omega) B]
    unfold headerRemCheck
    rw [if_neg (by omega)]
  have hm : decodeMandatory B = .ok (⟨s, g, bloom, ls⟩,
      optEncNat dn ++ (optEncNat dv ++ rest)) := by
    rw [hB]
    exact decodeMandatory_enc s g bloom ls _ hs hg hb256 hlv hlogs_lt
  simp only [hh]
  show decodeAfterHeader P B = _
  unfold decodeAfterHeader
  simp only [hm]
  have hcP : B.length - rest.length = P := by omega
  rcases dn with _ | n
  · have hdvn : dv = none := hinv rfl
    subst hdvn
    simp only [optEncNat, List.nil_append]
    unfold decodeOptionals
    rw [hcP, wsub_self]
    simp [hcP]
  · have hn64 : n < 2 ^ 64 := hnB
    have hnn : 0 < natRlpLen n := natRlpLen_pos n
    have hnP : natRlpLen n ≤ P := by
      simp only [hP, optNatLen]
      omega
    rcases dv with _ | v
    · simp only [optEncNat, List.nil_append]
      unfold decodeOptionals
      have heq1 : B.length - (encNat n ++ rest).length = P - natRlpLen n := by
        simp only [List.length_append]
        have : (encNat n).length = natRlpLen n := length_encNat n (by
          have := beBytes_le_8 n hn64
          omega)
        omega
      rw [heq1, wsub_sub_cancel P (natRlpLen n) hnP (by omega),
        if_pos hnn]
      simp only [decodeUint_encNat 8 n (by rw [pow_256_8]; omega) (by norm_num) rest]
      rw [hcP, wsub_self]
      simp [hcP]
    · have hv64 : v < 2 ^ 64 := hvB
      have hvv : 0 < natRlpLen v := natRlpLen_pos v
      have hvP : natRlpLen v ≤ P := by
        simp only [hP, optNatLen]
        omega
      have hnvP : natRlpLen n + natRlpLen v ≤ P := by
        simp only [hP, optNatLen]
        omega
      have hlenN : (encNat n).length = natRlpLen n := length_encNat n (by
        have := beBytes_le_8 n hn64
        omega)
      have hlenV : (encNat v).length = natRlpLen v := length_encNat v (by
        have := beBytes_le_8 v hv64
        omega)
      simp only [optEncNat]
      unfold decodeOptionals
      have heq1 : B.length - (encNat n ++ (encNat v ++ rest)).length =
          P - (natRlpLen n + natRlpLen v) := by
        simp only [List.length_append]
        omega
      rw [heq1, wsub_sub_cancel P (natRlpLen n + natRlpLen v) hnvP (by omega),
        if_pos (by omega)]
      simp only [decodeUint_encNat 8 n (by rw [pow_256_8]; omega) (by norm_num)
        (encNat v ++ rest)]
      have heq2 : B.length - (encNat v ++ rest).length = P - natRlpLen v := by
        simp only [List.length_append]
        omega
      rw [heq2, wsub_sub_cancel P (natRlpLen v) hvP (by omega), if_pos hvv]
      simp only [decodeUint_encNat 8 v (by rw [pow_256_8]; omega) (by norm_num) rest]
      simp [hcP]

/-! Bloom-filter well-formedness: the accrual keeps the filter a 256-entry
byte string, so `with_bloom` of a valid receipt is a valid wrapper. -/

theorem getD_default_or_mem (l : List Nat) (i d : Nat) :
    l.getD i d = d ∨ l.getD i d ∈ l := by
  unfold List.getD
  cases hg : l.get? i with
  | none => left; rfl
  | some x =>
    right
    simp only [Option.getD_some]
    exact List.get?_mem hg

theorem foldl_preserve {α : Type} (P : Bytes → Prop) (f : Bytes → α → Bytes)
    (hf : ∀ b x, P b → P (f b x)) :
    ∀ (l : List α) (b : Bytes), P b → P (l.foldl f b) := by
  intro l
  induction l with
  | nil => intro b hb; exact hb
  | cons x xs ih => intro b hb; exact ih (f b x) (hf b x hb)

/-- The invariant carried through every bloom accrual step. -/
def GoodBloom (b : Bytes) : Prop := b.length = 256 ∧ ValidB b

theorem goodBloom_zero : GoodBloom zeroBloom := by
  constructor
  · exact List.length_replicate 256 0
  · intro x hx
    unfold zeroBloom at hx
    rw [List.eq_of_mem_replicate hx]
    norm_num

theorem goodBloom_m3_2048_hashed (bl h : Bytes) (hP : GoodBloom bl) :
    GoodBloom (m3_2048_hashed bl h) := by
  unfold m3_2048_hashed
  refine foldl_preserve GoodBloom _ ?_ [0, 2, 4] bl hP
  intro b i hPb
  constructor
  · rw [List.length_set]
    exact hPb.1
  · intro x hx
    rcases List.mem_or_eq_of_mem_set hx with hmem | heq
    · exact hPb.2 x hmem
    · subst heq
      have h1 : b.getD (256 - 1 - ((h.getD (i + 1) 0 + (h.getD i 0 <<< 8)) &&& 0x7ff) / 8) 0
          < 2 ^ 8 := by
        rcases getD_default_or_mem b
          (256 - 1 - ((h.getD (i + 1) 0 + (h.getD i 0 <<< 8)) &&& 0x7ff) / 8) 0 with
          hd | hm
        · omega
        · have := hPb.2 _ hm
          omega
      have h2 : (1 : Nat) <<< (((h.getD (i + 1) 0 + (h.getD i 0 <<< 8)) &&& 0x7ff) % 8)
          < 2 ^ 8 := by
        rw [Nat.shiftLeft_eq, one_mul]
        calc (2 : Nat) ^ (((h.getD (i + 1) 0 + (h.getD i 0 <<< 8)) &&& 0x7ff) % 8)
            ≤ 2 ^ 7 := Nat.pow_le_pow_right (by norm_num) (by omega)
          _ < 2 ^ 8 := by norm_num
      have h3 := Nat.or_lt_two_pow h1 h2
      omega

theorem goodBloom_m3_2048 (bl d : Bytes) (hP : GoodBloom bl) :
    GoodBloom (m3_2048 bl d) :=
  goodBloom_m3_2048_hashed bl (keccak256 d) hP

theorem goodBloom_accrue_log (bl : Bytes) (l : Log) (hP : GoodBloom bl) :
    GoodBloom (accrue_log bl l) := by
  unfold accrue_log
  exact foldl_preserve GoodBloom _ (fun b t h => goodBloom_m3_2048 b t h)
    l.data.topics (m3_2048 bl l.address) (goodBloom_m3_2048 bl l.address hP)

theorem goodBloom_bloom_slow (r : OpDepositReceipt) : GoodBloom (bloom_slow r) := by
  unfold bloom_slow
  exact foldl_preserve GoodBloom _ (fun b l h => goodBloom_accrue_log b l h)
    r.inner.logs zeroBloom goodBloom_zero

/-- A valid receipt value yields a valid wrapped receipt. -/
theorem valid_with_bloom (r : OpDepositReceipt) (hv : ValidReceipt r) :
    ValidWrapper (with_bloom r) := by
  obtain ⟨hs, hg, hlv, hn, hvv, hinv, hpl⟩ := hv
  have hb := goodBloom_bloom_slow r
  exact ⟨hs, hg, hb.1, hb.2, hlv, hn, hvv, hinv, hpl⟩

/-! Encoding shape and length facts used by the truncation and
length-accuracy claims. -/

theorem statusRlpLen_pos (s : Eip658Value) : 0 < statusRlpLen s := by
  match s with
  | .eip658 b => exact Nat.one_pos
  | .postState h => exact strRlpLen_pos h

theorem payload_len_pos (w : OpDepositReceiptWithBloom) : 0 < payload_len w := by
  unfold payload_len
  have := statusRlpLen_pos w.receipt.inner.status
  omega

theorem encode_fields_eq (w : OpDepositReceiptWithBloom) :
    encode_fields w = encHeader true (payload_len w) ++ encBody w := by
  unfold encode_fields encBody
  simp [List.append_assoc]

theorem length_encBody (w : OpDepositReceiptWithBloom) (hv : ValidWrapper w) :
    (encBody w).length = payload_len w := by
  obtain ⟨hs, hg, hb256, hbv, hlv, hnB, hvB, hinv, hplB⟩ := hv
  have h2 : (encNat w.receipt.inner.cumulative_gas_used).length
      = natRlpLen w.receipt.inner.cumulative_gas_used := by
    refine length_encNat _ ?_
    have := beBytes_length_le 16 w.receipt.inner.cumulative_gas_used
      (by rw [pow_256_16]; omega)
    omega
  have h5 := length_optEncNat _ hnB
  have h6 := length_optEncNat _ hvB
  unfold encBody payload_len
  simp only [List.length_append, length_encStatus, length_encStr, length_encLogs]
  omega

theorem length_encode_fields (w : OpDepositReceiptWithBloom) (hv : ValidWrapper w) :
    (encode_fields w).length = rlpLength w := by
  rw [encode_fields_eq w, List.length_append, length_encHeader, length_encBody w hv]
  unfold rlpLength
  omega

/-- Dropping the final byte of any valid encoding makes the outer header's
remaining-length check fail. -/
theorem decode_truncated (w : OpDepositReceiptWithBloom) (hv : ValidWrapper w) :
    decode_receipt ((encode_fields w).dropLast) = .error .inputTooShort := by
  have hplB : payload_len w < 2 ^ 64 := hv.2.2.2.2.2.2.2.2
  have hpos : 0 < payload_len w := payload_len_pos w
  have hlen := length_encBody w hv
  have hne : encBody w ≠ [] := by
    intro hc
    rw [hc] at hlen
    simp at hlen
    omega
  rw [encode_fields_eq w, List.dropLast_append_of_ne_nil _ hne]
  unfold decode_receipt
  rw [decodeHeader_encHeader_list _ hplB _]
  unfold headerRemCheck
  rw [if_pos (by rw [List.length_dropLast, hlen]; omega)]

/-! Facts about decoder results on arbitrary input, for the
over-consumption analysis. -/

theorem headerRemCheck_ok (lf : Bool) (pl : Nat) (b : Bytes) (h : RlpHeader)
    (b' : Bytes) (hd : headerRemCheck lf pl b = .ok (h, b')) :
    h = ⟨lf, pl⟩ ∧ b' = b := by
  unfold headerRemCheck at hd
  split at hd
  · simp at hd
  · simp only [Except.ok.injEq, Prod.mk.injEq] at hd
    exact ⟨hd.1.symm, hd.2.symm⟩

theorem staticLeftPad_ok_lt (N : Nat) (bs : Bytes) (n : Nat) (hv : ValidB bs)
    (hd : staticLeftPad N bs = .ok n) : n < 256 ^ N := by
  unfold staticLeftPad at hd
  by_cases hN : N < bs.length
  · rw [if_pos hN] at hd
    simp at hd
  · rw [if_neg hN] at hd
    cases bs with
    | nil =>
      simp only [Except.ok.injEq] at hd
      subst hd
      exact Nat.pos_pow_of_pos N (by norm_num)
    | cons d t =>
      have hd2 : (if d = 0 then Except.error Err.leadingZero
          else Except.ok (natFromBe (d :: t))) = Except.ok n := hd
      by_cases hd0 : d = 0
      · rw [if_pos hd0] at hd2
        simp at hd2
      · rw [if_neg hd0] at hd2
        simp only [Except.ok.injEq] at hd2
        subst hd2
        calc natFromBe (d :: t) < 256 ^ (d :: t).length := natFromBe_lt _ hv
          _ ≤ 256 ^ N := Nat.pow_le_pow_right (by norm_num)
            (by simp only [List.length_cons] at hN ⊢; omega)

theorem decodeLongLen_ok (isList : Bool) (L : Nat) (rest : Bytes) (h : RlpHeader)
    (b' : Bytes) (hv : ValidB rest) (hd : decodeLongLen isList L rest = .ok (h, b')) :
    b'.length ≤ rest.length ∧ h.payload_length < 2 ^ 64 := by
  unfold decodeLongLen at hd
  by_cases h1 : L = 0 ∨ 8 < L
  · rw [if_pos h1] at hd
    simp at hd
  · rw [if_neg h1] at hd
    by_cases h2 : rest.length < L
    · rw [if_pos h2] at hd
      simp at hd
    · rw [if_neg h2] at hd
      cases hsp : staticLeftPad 8 (rest.take L) with
      | error e =>
        simp [hsp] at hd
      | ok len =>
        simp only [hsp] at hd
        by_cases h3 : len < 56
        · rw [if_pos h3] at hd
          simp at hd
        · rw [if_neg h3] at hd
          obtain ⟨hh, hb⟩ := headerRemCheck_ok _ _ _ _ _ hd
          have hlt := staticLeftPad_ok_lt 8 _ len
            (fun x hx => hv x (List.mem_of_mem_take hx)) hsp
          constructor
          · rw [hb, List.length_drop]
            omega
          · rw [hh]
            show len < 2 ^ 64
            rw [← pow_256_8]
            exact hlt

theorem decodeHeader_shrink (buf : Bytes) (h : RlpHeader) (b : Bytes)
    (hd : decodeHeader buf = .ok (h, b)) : b.length ≤ buf.length := by
  rcases buf with _ | ⟨b0, rest⟩
  · rw [show decodeHeader ([] : Bytes) = Except.error Err.inputTooShort from rfl] at hd
    simp at hd
  · rw [decodeHeader_cons] at hd
    by_cases c1 : b0 ≤ 0x7f
    · rw [if_pos c1] at hd
      rw [(headerRemCheck_ok _ _ _ _ _ hd).2]
    · rw [if_neg c1] at hd
      by_cases c2 : b0 ≤ 0xb7
      · rw [if_pos c2] at hd
        by_cases c3 : b0 - 0x80 = 1
        · rw [if_pos c3] at hd
          cases rest with
          | nil => simp at hd
          | cons b1 t =>
            have hd2 : (if b1 < 0x80 then Except.error Err.nonCanonicalSingleByte
                else headerRemCheck false (b0 - 0x80) (b1 :: t)) = Except.ok (h, b) := hd
            by_cases c4 : b1 < 0x80
            · rw [if_pos c4] at hd2
              simp at hd2
            · rw [if_neg c4] at hd2
              rw [(headerRemCheck_ok _ _ _ _ _ hd2).2]
              simp
        · rw [if_neg c3] at hd
          rw [(headerRemCheck_ok _ _ _ _ _ hd).2]
          simp
      · rw [if_neg c2] at hd
        by_cases c4 : b0 ≤ 0xbf
        · rw [if_pos c4] at hd
          -- long string: b' is a suffix of rest
          unfold decodeLongLen at hd
          by_cases h1 : b0 - 0xb7 = 0 ∨ 8 < b0 - 0xb7
          · rw [if_pos h1] at hd
            simp at hd
          · rw [if_neg h1] at hd
            by_cases h2 : rest.length < b0 - 0xb7
            · rw [if_pos h2] at hd
              simp at hd
            · rw [if_neg h2] at hd
              cases hsp : staticLeftPad 8 (rest.take (b0 - 0xb7)) with
              | error e =>
                simp [hsp] at hd
              | ok len =>
                simp only [hsp] at hd
                by_cases h3 : len < 56
                · rw [if_pos h3] at hd
                  simp at hd
                · rw [if_neg h3] at hd
                  rw [(headerRemCheck_ok _ _ _ _ _ hd).2]
                  simp only [List.length_drop, List.length_cons]
                  omega
        · by_cases c5 : b0 ≤ 0xf7
          · rw [if_neg c4, if_pos c5] at hd
            rw [(headerRemCheck_ok _ _ _ _ _ hd).2]
            simp
          · rw [if_neg c4, if_neg c5] at hd
            unfold decodeLongLen at hd
            by_cases h1 : b0 - 0xf7 = 0 ∨ 8 < b0 - 0xf7
            · rw [if_pos h1] at hd
              simp at hd
            · rw [if_neg h1] at hd
              by_cases h2 : rest.length < b0 - 0xf7
              · rw [if_pos h2] at hd
                simp at hd
              · rw [if_neg h2] at hd
                cases hsp : staticLeftPad 8 (rest.take (b0 - 0xf7)) with
                | error e =>
                  simp [hsp] at hd
                | ok len =>
                  simp only [hsp] at hd
                  by_cases h3 : len < 56
                  · rw [if_pos h3] at hd
                    simp at hd
                  · rw [if_neg h3] at hd
                    rw [(headerRemCheck_ok _ _ _ _ _ hd).2]
                    simp only [List.length_drop, List.length_cons]
                    omega

theorem decodeHeader_pl_lt (buf : Bytes) (h : RlpHeader) (b : Bytes)
    (hv : ValidB buf) (hd : decodeHeader buf = .ok (h, b)) :
    h.payload_length < 2 ^ 64 := by
  rcases buf with _ | ⟨b0, rest⟩
  · rw [show decodeHeader ([] : Bytes) = Except.error Err.inputTooShort from rfl] at hd
    simp at hd
  · have hrest : ValidB rest := fun x hx => hv x (List.mem_cons_of_mem _ hx)
    rw [decodeHeader_cons] at hd
    by_cases c1 : b0 ≤ 0x7f
    · rw [if_pos c1] at hd
      rw [(headerRemCheck_ok _ _ _ _ _ hd).1]
      norm_num
    · rw [if_neg c1] at hd
      by_cases c2 : b0 ≤ 0xb7
      · rw [if_pos c2] at hd
        by_cases c3 : b0 - 0x80 = 1
        · rw [if_pos c3] at hd
          cases rest with
          | nil => simp at hd
          | cons b1 t =>
            have hd2 : (if b1 < 0x80 then Except.error Err.nonCanonicalSingleByte
                else headerRemCheck false (b0 - 0x80) (b1 :: t)) = Except.ok (h, b) := hd
            by_cases c4 : b1 < 0x80
            · rw [if_pos c4] at hd2
              simp at hd2
            · rw [if_neg c4] at hd2
              rw [(headerRemCheck_ok _ _ _ _ _ hd2).1]
              show b0 - 0x80 < 2 ^ 64
              omega
        · rw [if_neg c3] at hd
          rw [(headerRemCheck_ok _ _ _ _ _ hd).1]
          show b0 - 0x80 < 2 ^ 64
          omega
      · rw [if_neg c2] at hd
        by_cases c4 : b0 ≤ 0xbf
        · rw [if_pos c4] at hd
          exact (decodeLongLen_ok _ _ _ _ _ hrest hd).2
        · by_cases c5 : b0 ≤ 0xf7
          · rw [if_neg c4, if_pos c5] at hd
            rw [(headerRemCheck_ok _ _ _ _ _ hd).1]
            show b0 - 0xc0 < 2 ^ 64
            omega
          · rw [if_neg c4, if_neg c5] at hd
            exact (decodeLongLen_ok _ _ _ _ _ hrest hd).2

theorem decodeBytes_shrink (isList : Bool) (buf p rest : Bytes)
    (hd : decodeBytes isList buf = .ok (p, rest)) : rest.length ≤ buf.length := by
  unfold decodeBytes at hd
  cases hh : decodeHeader buf with
  | error e =>
    simp [hh] at hd
  | ok hr =>
    obtain ⟨h, b⟩ := hr
    simp only [hh] at hd
    split at hd
    · simp only [Except.ok.injEq, Prod.mk.injEq] at hd
      have := decodeHeader_shrink buf h b hh
      rw [← hd.2, List.length_drop]
      omega
    · simp at hd

theorem decodeUint_shrink (N : Nat) (buf : Bytes) (n : Nat) (rest : Bytes)
    (hd : decodeUint N buf = .ok (n, rest)) : rest.length ≤ buf.length := by
  unfold decodeUint at hd
  cases hb : decodeBytes false buf with
  | error e =>
    simp [hb] at hd
  | ok pr =>
    obtain ⟨p, r⟩ := pr
    simp only [hb] at hd
    cases hsp : staticLeftPad N p with
    | error e =>
      simp [hsp] at hd
    | ok m =>
      simp only [hsp, Except.ok.injEq, Prod.mk.injEq] at hd
      rw [← hd.2]
      exact decodeBytes_shrink false buf p r hb

/-- When the four mandatory fields consume more bytes than the header
declared, the wrapping `remaining` computation is positive, so the decoder
attempts the optional fields and necessarily ends in a typed error. -/
theorem decode_overrun_err (buf : Bytes) (h : RlpHeader) (b b4 : Bytes)
    (m : Mandatory) (hvb : ValidB buf) (hblen : buf.length < 2 ^ 64)
    (hd : decodeHeader buf = .ok (h, b)) (hl : h.list = true)
    (hm : decodeMandatory b = .ok (m, b4))
    (hover : h.payload_length < b.length - b4.length) :
    ∃ e, decode_receipt buf = .error e := by
  have hble : b.length ≤ buf.length := decodeHeader_shrink buf h b hd
  have hpl : h.payload_length < 2 ^ 64 := decodeHeader_pl_lt buf h b hvb hd
  have hstep : decode_receipt buf = decodeAfterHeader h.payload_length b := by
    unfold decode_receipt
    rw [hd]
    simp [hl]
  rw [hstep]
  unfold decodeAfterHeader
  simp only [hm]
  unfold decodeOptionals
  have hc4 : b.length - b4.length ≤ b.length := Nat.sub_le _ _
  rw [if_pos (wsub_pos_of_lt _ _ hover (by omega))]
  cases hu : decodeUint 8 b4 with
  | error e => exact ⟨e, by simp [hu]⟩
  | ok p =>
    obtain ⟨n, b5⟩ := p
    have hb5 : b5.length ≤ b4.length := decodeUint_shrink 8 b4 n b5 hu
    have hover2 : h.payload_length < b.length - b5.length := by omega
    simp only [hu]
    rw [if_pos (wsub_pos_of_lt _ _ hover2 (by omega))]
    cases hu2 : decodeUint 8 b5 with
    | error e => exact ⟨e, by simp [hu2]⟩
    | ok p2 =>
      obtain ⟨v, b6⟩ := p2
      have hb6 : b6.length ≤ b5.length := decodeUint_shrink 8 b5 v b6 hu2
      simp only [hu2]
      refine ⟨.listLengthMismatch h.payload_length (b.length - b6.length), ?_⟩
      rw [if_neg (by omega)]

/-! The claims. -/

/-- C1: for every valid receipt value R (the deposit receipt version absent
whenever the deposit nonce is absent; any combination of present or absent
optional fields; any number of logs including zero), decoding the bytes
produced by encoding `with_bloom R` succeeds and returns a wrapper equal to
`with_bloom R`, consuming the input exactly. -/
theorem claim_C1_roundtrip (R : OpDepositReceipt) (hv : ValidReceipt R) :
    decode_receipt (encode_fields (with_bloom R)) = .ok (with_bloom R, []) := by
  have h := decode_encode (with_bloom R) (valid_with_bloom R hv) []
  simpa using h

theorem claim_C1_roundtrip_witness :
    ValidReceipt sampleReceipt ∧
      decode_receipt (encode_fields (with_bloom sampleReceipt))
        = .ok (with_bloom sampleReceipt, []) :=
  ⟨by decide, claim_C1_roundtrip sampleReceipt (by decide)⟩

/-- C2: for every valid wrapped receipt, `length` returns exactly the byte
count of the encoding, which equals the payload length plus the byte count
of the list header encoding that payload length. -/
theorem claim_C2_length (w : OpDepositReceiptWithBloom) (hv : ValidWrapper w) :
    rlpLength w = (encode_fields w).length
    ∧ rlpLength w = payload_len w + lengthOfLength (payload_len w)
    ∧ (encHeader true (payload_len w)).length = lengthOfLength (payload_len w) :=
  ⟨(length_encode_fields w hv).symm, rfl, length_encHeader true (payload_len w)⟩

theorem claim_C2_length_witness :
    ValidWrapper sampleWrapper ∧
      (rlpLength sampleWrapper = (encode_fields sampleWrapper).length
      ∧ rlpLength sampleWrapper
          = payload_len sampleWrapper + lengthOfLength (payload_len sampleWrapper)
      ∧ (encHeader true (payload_len sampleWrapper)).length
          = lengthOfLength (payload_len sampleWrapper)) :=
  ⟨by decide, claim_C2_length sampleWrapper (by decide)⟩

/-- C3 counterexample: dropping the final byte of a valid encoding makes
decode fail with `inputTooShort` (from the header's remaining-length
check), not with the list-length-mismatch error the claim names. -/
theorem claim_C3_counterexample :
    decode_receipt ((encode_fields sampleWrapper).dropLast)
      = .error .inputTooShort := by decide

/-- C3 (amended): removing the final byte of any valid encoding makes
decode fail — with the input-too-short error from the header's
remaining-length check — and never silently succeed with fewer fields. -/
theorem claim_C3_truncation (w : OpDepositReceiptWithBloom) (hv : ValidWrapper w) :
    decode_receipt ((encode_fields w).dropLast) = .error .inputTooShort :=
  decode_truncated w hv

theorem claim_C3_truncation_witness :
    ValidWrapper sampleWrapper ∧
      decode_receipt ((encode_fields sampleWrapper).dropLast)
        = .error .inputTooShort :=
  ⟨by decide, claim_C3_truncation sampleWrapper (by decide)⟩

/-- C4: once the four mandatory fields are read and both optional fields
attempted, decode succeeds exactly when the bytes consumed since the list
header equal the declared payload length; any mismatch yields the
list-length-mismatch error carrying the declared and the consumed count. -/
theorem claim_C4_length_check (buf : Bytes) (h : RlpHeader) (b b4 b' : Bytes)
    (m : Mandatory) (dn dv : Option Nat)
    (hd : decodeHeader buf = .ok (h, b)) (hl : h.list = true)
    (hm : decodeMandatory b = .ok (m, b4))
    (ho : decodeOptionals h.payload_length b.length b4 = .ok ((dn, dv), b')) :
    ((∃ W rest, decode_receipt buf = .ok (W, rest))
        ↔ b.length - b'.length = h.payload_length)
    ∧ (b.length - b'.length ≠ h.payload_length →
        decode_receipt buf
          = .error (.listLengthMismatch h.payload_length (b.length - b'.length))) := by
  have hstep : decode_receipt buf = decodeAfterHeader h.payload_length b := by
    unfold decode_receipt
    rw [hd]
    simp [hl]
  have hafter : decodeAfterHeader h.payload_length b =
      (if b.length - b'.length = h.payload_length
      then .ok (⟨⟨⟨m.success, m.cumulative_gas_used, m.logs⟩, dn, dv⟩, m.bloom⟩, b')
      else .error (.listLengthMismatch h.payload_length (b.length - b'.length))) := by
    unfold decodeAfterHeader
    simp only [hm, ho]
  constructor
  · constructor
    · rintro ⟨W, rest, hW⟩
      rw [hstep, hafter] at hW
      by_contra hne
      rw [if_neg hne] at hW
      simp at hW
    · intro heq
      refine ⟨⟨⟨⟨m.success, m.cumulative_gas_used, m.logs⟩, dn, dv⟩, m.bloom⟩, b', ?_⟩
      rw [hstep, hafter, if_pos heq]
  · intro hne
    rw [hstep, hafter, if_neg hne]

theorem claim_C4_length_check_witness :
    decodeHeader (encode_fields sampleWrapper) = .ok (⟨true, 269⟩, sampleBody)
    ∧ decodeMandatory sampleBody
        = .ok (sampleMandatory, [0x83, 0x3d, 0x3b, 0xbf, 0x01])
    ∧ decodeOptionals 269 sampleBody.length [0x83, 0x3d, 0x3b, 0xbf, 0x01]
        = .ok ((some 4012991, some 1), [])
    ∧ (∃ W rest, decode_receipt (encode_fields sampleWrapper) = .ok (W, rest)) := by
  have h1 : decodeHeader (encode_fields sampleWrapper)
      = .ok (⟨true, 269⟩, sampleBody) := by decide
  have h2 : decodeMandatory sampleBody
      = .ok (sampleMandatory, [0x83, 0x3d, 0x3b, 0xbf, 0x01]) := by decide
  have h3 : decodeOptionals 269 sampleBody.length [0x83, 0x3d, 0x3b, 0xbf, 0x01]
      = .ok ((some 4012991, some 1), []) := by decide
  exact ⟨h1, h2, h3,
    (claim_C4_length_check (encode_fields sampleWrapper) ⟨true, 269⟩ sampleBody
      [0x83, 0x3d, 0x3b, 0xbf, 0x01] [] sampleMandatory (some 4012991) (some 1)
      h1 rfl h2 h3).1.mpr (by decide)⟩

/-- C5: the encoding is the list header over the declared payload length
followed by the present fields in fixed order (status, gas, bloom, logs,
nonce iff present, version iff present); the declared payload length is
exactly the byte count of those fields, and an absent optional field
contributes no bytes at all. -/
theorem claim_C5_encode_shape (w : OpDepositReceiptWithBloom) (hv : ValidWrapper w) :
    encode_fields w = encHeader true (payload_len w) ++ encBody w
    ∧ encBody w = encStatus w.receipt.inner.status
        ++ (encNat w.receipt.inner.cumulative_gas_used
        ++ (encStr w.logs_bloom
        ++ (encLogs w.receipt.inner.logs
        ++ (optEncNat w.receipt.deposit_nonce
        ++ optEncNat w.receipt.deposit_receipt_version))))
    ∧ payload_len w = (encBody w).length
    ∧ optEncNat none = ([] : Bytes) :=
  ⟨encode_fields_eq w, rfl, (length_encBody w hv).symm, rfl⟩

theorem claim_C5_encode_shape_witness :
    ValidWrapper sampleWrapper ∧
      (encode_fields sampleWrapper
          = encHeader true (payload_len sampleWrapper) ++ encBody sampleWrapper
      ∧ payload_len sampleWrapper = (encBody sampleWrapper).length) := by
  have h := claim_C5_encode_shape sampleWrapper (by decide)
  exact ⟨by decide, h.1, h.2.2.1⟩

/-- C6: a present-but-zero deposit nonce and an absent one are distinct
states: the two encodings differ, and each decodes back to its own value
(`some 0` round-trips to `some 0`, `none` to `none`). -/
theorem claim_C6_zero_vs_absent (st : Eip658Value) (g : Nat) (bloom : Bytes)
    (ls : List Log)
    (h1 : ValidWrapper ⟨⟨⟨st, g, ls⟩, some 0, none⟩, bloom⟩)
    (h2 : ValidWrapper ⟨⟨⟨st, g, ls⟩, none, none⟩, bloom⟩) :
    encode_fields ⟨⟨⟨st, g, ls⟩, some 0, none⟩, bloom⟩
        ≠ encode_fields ⟨⟨⟨st, g, ls⟩, none, none⟩, bloom⟩
    ∧ decode_receipt (encode_fields ⟨⟨⟨st, g, ls⟩, some 0, none⟩, bloom⟩)
        = .ok (⟨⟨⟨st, g, ls⟩, some 0, none⟩, bloom⟩, [])
    ∧ decode_receipt (encode_fields ⟨⟨⟨st, g, ls⟩, none, none⟩, bloom⟩)
        = .ok (⟨⟨⟨st, g, ls⟩, none, none⟩, bloom⟩, []) := by
  refine ⟨?_, by simpa using decode_encode _ h1 [], by simpa using decode_encode _ h2 []⟩
  intro hc
  have hl1 := length_encode_fields _ h1
  have hl2 := length_encode_fields _ h2
  rw [hc, hl2] at hl1
  have hp : payload_len ⟨⟨⟨st, g, ls⟩, some 0, none⟩, bloom⟩
      = payload_len ⟨⟨⟨st, g, ls⟩, none, none⟩, bloom⟩ + 1 := by
    simp [payload_len, optNatLen, natRlpLen]
  have hmono := lengthOfLength_mono
    (payload_len ⟨⟨⟨st, g, ls⟩, none, none⟩, bloom⟩)
    (payload_len ⟨⟨⟨st, g, ls⟩, some 0, none⟩, bloom⟩) (by omega)
  unfold rlpLength at hl1
  omega

theorem claim_C6_zero_vs_absent_witness :
    ValidWrapper ⟨⟨⟨.eip658 true, 5, []⟩, some 0, none⟩, zeroBloom⟩
    ∧ ValidWrapper ⟨⟨⟨.eip658 true, 5, []⟩, none, none⟩, zeroBloom⟩
    ∧ (encode_fields ⟨⟨⟨.eip658 true, 5, []⟩, some 0, none⟩, zeroBloom⟩
        ≠ encode_fields ⟨⟨⟨.eip658 true, 5, []⟩, none, none⟩, zeroBloom⟩
    ∧ decode_receipt (encode_fields ⟨⟨⟨.eip658 true, 5, []⟩, some 0, none⟩, zeroBloom⟩)
        = .ok (⟨⟨⟨.eip658 true, 5, []⟩, some 0, none⟩, zeroBloom⟩, [])
    ∧ decode_receipt (encode_fields ⟨⟨⟨.eip658 true, 5, []⟩, none, none⟩, zeroBloom⟩)
        = .ok (⟨⟨⟨.eip658 true, 5, []⟩, none, none⟩, zeroBloom⟩, [])) :=
  ⟨by decide, by decide,
    claim_C6_zero_vs_absent (.eip658 true) 5 zeroBloom [] (by decide) (by decide)⟩

/-- C7: `with_bloom` returns the wrapper whose receipt component is the
input unchanged and whose filter is `bloom_slow`, i.e. the fold of the
per-log accrual over the empty filter; the construction is total, with no
error path. -/
theorem claim_C7_with_bloom (R : OpDepositReceipt) :
    (with_bloom R).receipt = R
    ∧ (with_bloom R).logs_bloom = bloom_slow R
    ∧ bloom_slow R = R.inner.logs.foldl accrue_log zeroBloom :=
  ⟨rfl, rfl, rfl⟩

/-- C8: decode trusts the encoded filter bits — every successful decode
returns, verbatim, the bloom field read from the input, with no
recomputation from the decoded logs; in particular an input whose filter
does not match its logs still decodes successfully. -/
theorem claim_C8_bloom_trust :
    (∀ buf W rest, decode_receipt buf = .ok (W, rest) →
      decodedBloom buf = some W.logs_bloom)
    ∧ decode_receipt (encode_fields mismatchWrapper) = .ok (mismatchWrapper, [])
    ∧ mismatchWrapper.logs_bloom ≠ bloom_slow mismatchWrapper.receipt := by
  refine ⟨?_, by simpa using decode_encode mismatchWrapper (by decide) [], by decide⟩
  intro buf W rest hW
  unfold decode_receipt at hW
  cases hd : decodeHeader buf with
  | error e => simp [hd] at hW
  | ok hr =>
    obtain ⟨h, b⟩ := hr
    simp only [hd] at hW
    by_cases hl : h.list
    · rw [if_pos hl] at hW
      unfold decodeAfterHeader at hW
      cases hm : decodeMandatory b with
      | error e => simp [hm] at hW
      | ok mr =>
        obtain ⟨m, b4⟩ := mr
        simp only [hm] at hW
        cases ho : decodeOptionals h.payload_length b.length b4 with
        | error e => simp [ho] at hW
        | ok opr =>
          obtain ⟨⟨dn, dv⟩, b'⟩ := opr
          simp only [ho] at hW
          split at hW
          · simp only [Except.ok.injEq, Prod.mk.injEq] at hW
            obtain ⟨hW1, hW2⟩ := hW
            unfold decodedBloom
            rw [hd]
            simp only [if_pos hl, hm]
            rw [← hW1]
          · simp at hW
    · rw [if_neg hl] at hW
      simp at hW

theorem claim_C8_bloom_trust_witness :
    decode_receipt (encode_fields mismatchWrapper) = .ok (mismatchWrapper, [])
    ∧ decodedBloom (encode_fields mismatchWrapper)
        = some mismatchWrapper.logs_bloom := by
  have h := claim_C8_bloom_trust
  exact ⟨h.2.1, h.1 _ _ _ h.2.1⟩

/-- C9: decoding the encoder's output for a valid receipt value never
yields a present version with an absent nonce — the decoder reads the
first remaining optional field as the nonce before ever reading the
version, and the encoder never emits a version without a nonce. -/
theorem claim_C9_monotonic (R : OpDepositReceipt) (hv : ValidReceipt R)
    (W : OpDepositReceiptWithBloom) (rest : Bytes)
    (hW : decode_receipt (encode_fields (with_bloom R)) = .ok (W, rest)) :
    W.receipt.deposit_nonce = none → W.receipt.deposit_receipt_version = none := by
  have hrt := decode_encode (with_bloom R) (valid_with_bloom R hv) []
  rw [List.append_nil] at hrt
  rw [hrt] at hW
  simp only [Except.ok.injEq, Prod.mk.injEq] at hW
  obtain ⟨h1, h2⟩ := hW
  subst h1
  intro hn
  exact hv.2.2.2.2.2.1 hn

theorem claim_C9_monotonic_witness :
    ValidReceipt ⟨⟨.eip658 true, 0, []⟩, none, none⟩
    ∧ decode_receipt (encode_fields (with_bloom ⟨⟨.eip658 true, 0, []⟩, none, none⟩))
        = .ok (with_bloom ⟨⟨.eip658 true, 0, []⟩, none, none⟩, [])
    ∧ ((with_bloom ⟨⟨.eip658 true, 0, []⟩, none, none⟩).receipt.deposit_nonce = none →
        (with_bloom ⟨⟨.eip658 true, 0, []⟩, none,
          none⟩).receipt.deposit_receipt_version = none) :=
  ⟨by decide, by decide,
    claim_C9_monotonic ⟨⟨.eip658 true, 0, []⟩, none, none⟩ (by decide)
      (with_bloom ⟨⟨.eip658 true, 0, []⟩, none, none⟩) [] (by decide)⟩

/-- C10 counterexample: on this crafted input the list header declares
payload length 1 while the four mandatory fields decode successfully,
consuming all 262 bytes after the header — so at the first evaluation of
the `remaining` closure, `started_len - b.len()` (262) exceeds
`payload_length` (1) and the claimed underflow-freedom of
`payload_length - (started_len - b.len())` fails. -/
theorem claim_C10_counterexample :
    decodeHeader underflowInput = .ok (⟨true, 1⟩, underflowTail)
    ∧ decodeMandatory underflowTail = .ok (underflowMandatory, [])
    ∧ 1 < underflowTail.length :=
  ⟨by decide, by decide, by decide⟩

/-- C10 (amended): decode is total over arbitrary byte input and, even
when the mandatory fields consume bytes past the declared payload boundary
(so the wrapping `remaining` subtraction underflows), it still returns a
typed error — never success and never a default value. -/
theorem claim_C10_overrun (buf : Bytes) (h : RlpHeader) (b b4 : Bytes)
    (m : Mandatory) (hvb : ValidB buf) (hblen : buf.length < 2 ^ 64)
    (hd : decodeHeader buf = .ok (h, b)) (hl : h.list = true)
    (hm : decodeMandatory b = .ok (m, b4))
    (hover : h.payload_length < b.length - b4.length) :
    ∃ e, decode_receipt buf = .error e :=
  decode_overrun_err buf h b b4 m hvb hblen hd hl hm hover

theorem claim_C10_overrun_witness :
    ValidB underflowInput ∧ underflowInput.length < 2 ^ 64
    ∧ (∃ e, decode_receipt underflowInput = .error e) :=
  ⟨by decide, by decide,
    claim_C10_overrun underflowInput ⟨true, 1⟩ underflowTail [] underflowMandatory
      (by decide) (by decide) (by decide) rfl (by decide) (by decide)⟩
